import Mathlib

/-!
# Verification of the Open-LLM-VTuber concurrency/ordering core

Shallow embedding of the parts of the code base relevant to the frozen
claims:

* `src/open_llm_vtuber/chat_group.py` — `ChatGroupManager` and its
  registry mutations (groups, membership maps);
* `src/open_llm_vtuber/conversations/conversation_handler.py` —
  `handle_conversation_trigger` (single-flight conversation tasks);
* `src/open_llm_vtuber/conversations/tts_manager.py` — `TTSTaskManager`
  (sequence-number assignment and the ordered payload drainer);
* `src/open_llm_vtuber/vad/silero.py` — the VAD `StateMachine` and
  `calculate_db`;
* `src/open_llm_vtuber/conversations/group_conversation.py` — the
  round-robin group conversation loop.

Python dictionaries are modelled as association lists with unique keys,
Python sets as duplicate-free lists.  A Python operation that can raise
an uncaught exception (`KeyError` from `dict[...]` / `set.remove`) is
modelled with `Option`, `none` standing for the raised exception.
-/

/-! ## Association-list helpers (model of Python `dict`) -/

/-- Model of Python `d.get(k)` / `k in d`: first value bound to `k`. -/
def alookup {κ α : Type} [DecidableEq κ] (k : κ) : List (κ × α) → Option α
  | [] => none
  | (k', v) :: rest => if k' = k then some v else alookup k rest

/-- Model of Python `d[k] = v`: replace the binding in place, or append. -/
def aset {κ α : Type} [DecidableEq κ] (k : κ) (v : α) : List (κ × α) → List (κ × α)
  | [] => [(k, v)]
  | (k', v') :: rest => if k' = k then (k, v) :: rest else (k', v') :: aset k v rest

/-- Model of Python `del d[k]`: drop the first binding of `k`. -/
def aremove {κ α : Type} [DecidableEq κ] (k : κ) : List (κ × α) → List (κ × α)
  | [] => []
  | (k', v') :: rest => if k' = k then rest else (k', v') :: aremove k rest

/-- The keys of an association list (Python `d.keys()`). -/
def akeys {κ α : Type} (l : List (κ × α)) : List κ := l.map Prod.fst

/-! ## `chat_group.py`: data model -/

/-- `Group` dataclass (renamed: `Group` is taken by Mathlib): group id, owner uid, member set (as a nodup list). -/
structure ChatGroup where
  group_id : String
  owner_uid : String
  members : List String
deriving DecidableEq, Repr

/-- `ChatGroupManager.__init__`: `client_group_map` (client uid → group id,
`""` meaning "not in any group") and `groups` (group id → `Group`). -/
structure ChatGroupManager where
  client_group_map : List (String × String)
  groups : List (String × ChatGroup)
deriving DecidableEq, Repr

/-- The empty registry (`ChatGroupManager()`). -/
def ChatGroupManager.empty : ChatGroupManager := ⟨[], []⟩

/-- Python truthiness of `dict.get` results: `None` and `""` are falsy. -/
def truthyOpt : Option String → Bool
  | none => false
  | some s => decide (s ≠ "")

/-- The group-id naming scheme `f"group_{client_uid}"`. -/
def mkGroupId (client_uid : String) : String := "group_" ++ client_uid

/-- Python `set.add`: no-op when already present, else insert. -/
def sadd (x : String) (s : List String) : List String :=
  if x ∈ s then s else s ++ [x]

/-- Python `set.remove` after a membership check: drop the element. -/
def serase (x : String) (s : List String) : List String :=
  s.filter (fun y => y ≠ x)

/-- `ChatGroupManager.create_group_for_client`. -/
def create_group_for_client (m : ChatGroupManager) (client_uid : String) :
    ChatGroupManager × String :=
  let group_id := mkGroupId client_uid
  let new_group : ChatGroup := ⟨group_id, client_uid, [client_uid]⟩
  (⟨aset client_uid group_id m.client_group_map, aset group_id new_group m.groups⟩,
    group_id)

/-- `websocket_handler.py` line 142, client registration:
`self.chat_group_manager.client_group_map[client_uid] = ""`. -/
def register_client (m : ChatGroupManager) (client_uid : String) : ChatGroupManager :=
  ⟨aset client_uid "" m.client_group_map, m.groups⟩

/-- `ChatGroupManager.add_client_to_group`.  Returns `none` when the Python
code would raise `KeyError` at `self.groups[inviter_group_id]` (a dangling
map entry); otherwise `some (new state, success flag, message)`. -/
def add_client_to_group (m : ChatGroupManager) (inviter_uid invitee_uid : String) :
    Option (ChatGroupManager × Bool × String) :=
  if (alookup invitee_uid m.client_group_map).isNone then
    some (m, false, "Invitee " ++ invitee_uid ++ " does not exist")
  else if truthyOpt (alookup invitee_uid m.client_group_map) then
    some (m, false, "Invitee " ++ invitee_uid ++ " is already in a group")
  else
    let inviter_group_id := alookup inviter_uid m.client_group_map
    let step :=
      if truthyOpt inviter_group_id then (m, inviter_group_id.getD "")
      else
        let group_id := mkGroupId inviter_uid
        let new_group : ChatGroup := ⟨group_id, inviter_uid, [inviter_uid]⟩
        (⟨aset inviter_uid group_id m.client_group_map,
          aset group_id new_group m.groups⟩, group_id)
    let m1 := step.1
    let gid := step.2
    match alookup gid m1.groups with
    | none => none
    | some group =>
      let group' := { group with members := sadd invitee_uid group.members }
      some (⟨aset invitee_uid gid m1.client_group_map, aset gid group' m1.groups⟩,
        true, "Successfully added " ++ invitee_uid ++ " to the group")

/-- `ChatGroupManager.remove_client_from_group`.  Returns `none` where the
Python code would raise (`KeyError` at `self.groups[target_group_id]` or at
`group.members.remove(target_uid)`). -/
def remove_client_from_group (m : ChatGroupManager) (remover_uid target_uid : String) :
    Option (ChatGroupManager × Bool × String) :=
  let target_group_id := alookup target_uid m.client_group_map
  if ¬ truthyOpt target_group_id then
    some (m, false, "Target " ++ target_uid ++ " is not in any group")
  else
    let gid := target_group_id.getD ""
    match alookup gid m.groups with
    | none => none
    | some group =>
      if remover_uid ≠ group.owner_uid ∧ remover_uid ≠ target_uid then
        some (m, false, "Only group owner or self can remove members")
      else if target_uid ∉ group.members then none
      else
        let members1 := serase target_uid group.members
        let map1 := aset target_uid "" m.client_group_map
        if members1.length ≤ 1 then
          match members1 with
          | [] =>
            some (⟨map1, aremove gid m.groups⟩, true,
              "Successfully removed " ++ target_uid ++ " from the group")
          | owner :: _ =>
            some (⟨aset owner "" map1, aremove gid m.groups⟩, true,
              "Successfully removed " ++ target_uid ++ " from the group")
        else
          some (⟨map1, aset gid { group with members := members1 } m.groups⟩, true,
            "Successfully removed " ++ target_uid ++ " from the group")

/-- `ChatGroupManager.remove_client` (disconnect-path cleanup).  Returns the
new state and the affected members (the group's members before removal). -/
def remove_client (m : ChatGroupManager) (client_uid : String) :
    ChatGroupManager × List String :=
  match alookup client_uid m.client_group_map with
  | none => (m, [])
  | some gid =>
    if gid = "" then (m, [])
    else
      match alookup gid m.groups with
      | none => (m, [])
      | some group =>
        let affected := group.members
        let members1 :=
          if client_uid ∈ group.members then serase client_uid group.members
          else group.members
        let map1 := aremove client_uid m.client_group_map
        let groups1 :=
          if group.owner_uid = client_uid then
            match members1 with
            | [] => aremove gid m.groups
            | new_owner :: _ =>
              aset gid { group with owner_uid := new_owner, members := members1 }
                m.groups
          else if members1.length = 0 then aremove gid m.groups
          else aset gid { group with members := members1 } m.groups
        (⟨map1, groups1⟩, affected)

/-- `ChatGroupManager.cleanup_disconnected_clients`: run `remove_client` on
every key of `client_group_map` that is not connected. -/
def cleanup_disconnected_clients (m : ChatGroupManager) (connected : List String) :
    ChatGroupManager :=
  ((akeys m.client_group_map).filter (fun c => c ∉ connected)).foldl
    (fun acc c => (remove_client acc c).1) m

/-- `ChatGroupManager.get_client_group`. -/
def get_client_group (m : ChatGroupManager) (client_uid : String) : Option ChatGroup :=
  match alookup client_uid m.client_group_map with
  | none => none
  | some gid => if gid = "" then none else alookup gid m.groups

/-! ## `conversation_handler.py`: conversation task scheduling -/

/-- An `asyncio.Task` handle as far as `handle_conversation_trigger` observes
it: an identity and its `done()` flag. -/
structure ConvTask where
  task_id : Nat
  done : Bool
deriving DecidableEq, Repr

/-- `handle_conversation_trigger` restricted to its effect on
`current_conversation_tasks`: for a client in a group of more than one
member the group id is the task key and a new task is spawned only when no
task is stored or the stored one is done; otherwise a new task is stored
under the client uid unconditionally.  `new_task` stands for the task that
`asyncio.create_task` would return. -/
def handle_conversation_trigger (m : ChatGroupManager) (client_uid : String)
    (current_conversation_tasks : List (String × ConvTask)) (new_task : ConvTask) :
    List (String × ConvTask) :=
  match get_client_group m client_uid with
  | some group =>
    if 1 < group.members.length then
      let task_key := group.group_id
      match alookup task_key current_conversation_tasks with
      | none => aset task_key new_task current_conversation_tasks
      | some t =>
        if t.done then aset task_key new_task current_conversation_tasks
        else current_conversation_tasks
    else aset client_uid new_task current_conversation_tasks
  | none => aset client_uid new_task current_conversation_tasks

/-! ## `tts_manager.py`: sequence assignment and ordered delivery -/

/-- Modelled from the spec: `DisplayText` (`agent/output_types.py`, not under
`src/`) is the display metadata a payload carries — shown text and speaker
name. -/
structure DisplayText where
  text : String
  name : String
deriving DecidableEq, Repr

/-- Modelled from the spec: `Actions` (`agent/output_types.py`, not under
`src/`) is opaque Live2D action metadata carried through unchanged. -/
structure Actions where
  tag : String
deriving DecidableEq, Repr

/-- A payload as delivered to the websocket: optional audio (the `none`
case is a silent payload) plus the retained display text and actions. -/
structure AudioPayload where
  audio : Option String
  display_text : DisplayText
  actions : Option Actions
deriving DecidableEq, Repr

/-- Modelled from the spec: `prepare_audio_payload`
(`utils/stream_audio.py`, not under `src/`) builds the payload from an
optional audio path plus display text and actions; a `None` audio path
yields a silent payload that still carries the display text and actions. -/
def prepare_audio_payload (audio_path : Option String) (display_text : DisplayText)
    (actions : Option Actions) : AudioPayload :=
  ⟨audio_path, display_text, actions⟩

/-- Code points removed by `re.sub(r'[\s.,!?，。！？\'"』」）】\s]+', "", tts_text)`
in `TTSTaskManager.speak`: ASCII whitespace (space, tab, LF, CR, VT, FF —
the core of Python `\s`) and the listed punctuation. -/
def strippableCodes : List Nat :=
  [32, 9, 10, 13, 11, 12, 46, 44, 33, 63, 0xFF0C, 0x3002, 0xFF01, 0xFF1F,
   39, 34, 0x300F, 0x300D, 0xFF09, 0x3011]

/-- A character the `speak` regex strips. -/
def strippableChar (c : Char) : Bool := c.toNat ∈ strippableCodes

/-- The emptiness test of `TTSTaskManager.speak` line 50: after stripping
whitespace/punctuation nothing remains. -/
def isEmptyFragment (tts_text : String) : Bool :=
  (tts_text.data.filter (fun c => ¬ strippableChar c)).length = 0

/-- One fragment submitted to `TTSTaskManager.speak`. -/
structure Fragment where
  tts_text : String
  display_text : DisplayText
  actions : Option Actions
deriving DecidableEq, Repr

/-- The submission-side state of a `TTSTaskManager`: the
`_sequence_counter` and the fragments submitted so far, each with the
sequence number `speak` assigned to it. -/
structure TTSSubmitState where
  sequence_counter : Nat
  submitted : List (Nat × Fragment)
deriving DecidableEq, Repr

/-- `TTSTaskManager.speak`, submission side: both the empty-fragment branch
and the synthesis branch read `_sequence_counter` and increment it, and
register exactly one pending payload under that number. -/
def speak (st : TTSSubmitState) (f : Fragment) : TTSSubmitState :=
  { sequence_counter := st.sequence_counter + 1,
    submitted := st.submitted ++ [(st.sequence_counter, f)] }

/-- A turn's worth of `speak` calls. -/
def speakAll (st : TTSSubmitState) (frags : List Fragment) : TTSSubmitState :=
  frags.foldl speak st

/-- The payload a fragment eventually puts on `_payload_queue`:
`speak` enqueues a silent payload immediately for an empty fragment
(`_send_silent_payload`); `_process_tts` enqueues the synthesized payload
on success and the same silent shape when synthesis raises. -/
def fragmentPayload (synth : String → Except String String) (f : Fragment) :
    AudioPayload :=
  if isEmptyFragment f.tts_text then
    prepare_audio_payload none f.display_text f.actions
  else
    match synth f.tts_text with
    | Except.ok audio_file_path =>
      prepare_audio_payload (some audio_file_path) f.display_text f.actions
    | Except.error _ => prepare_audio_payload none f.display_text f.actions

/-- The state of `_process_payload_queue`: the `buffered_payloads` dict and
the `_next_sequence_to_send` cursor. -/
structure DrainState (α : Type) where
  buffered : List (Nat × α)
  next_to_send : Nat
deriving DecidableEq, Repr

/-- The inner `while self._next_sequence_to_send in buffered_payloads` loop
of `_process_payload_queue`, with explicit fuel (each iteration pops one
buffered entry, so `buf.length` fuel always suffices).  Returns the
remaining buffer, the new cursor, and the payloads sent, in send order. -/
def drainFlushAux {α : Type} : Nat → List (Nat × α) → Nat → List (Nat × α) × Nat × List (Nat × α)
  | 0, buf, next => (buf, next, [])
  | fuel + 1, buf, next =>
    match alookup next buf with
    | none => (buf, next, [])
    | some p =>
      let r := drainFlushAux fuel (aremove next buf) (next + 1)
      (r.1, r.2.1, (next, p) :: r.2.2)

/-- The flush loop of `_process_payload_queue` with sufficient fuel. -/
def drainFlush {α : Type} (buf : List (Nat × α)) (next : Nat) :
    List (Nat × α) × Nat × List (Nat × α) :=
  drainFlushAux buf.length buf next

/-- One iteration of `_process_payload_queue`: take `(payload, seq)` from
the queue, store it in `buffered_payloads`, flush consecutively from the
cursor.  Returns the new state and what was sent. -/
def drainStep {α : Type} (st : DrainState α) (arrival : Nat × α) :
    DrainState α × List (Nat × α) :=
  let buf1 := aset arrival.1 arrival.2 st.buffered
  let r := drainFlush buf1 st.next_to_send
  (⟨r.1, r.2.1⟩, r.2.2)

/-- `_process_payload_queue` run over a whole arrival order (the order in
which completed synthesis tasks put their payloads on `_payload_queue`). -/
def drainRun {α : Type} (st : DrainState α) : List (Nat × α) → DrainState α × List (Nat × α)
  | [] => (st, [])
  | a :: rest =>
    let r := drainStep st a
    let r2 := drainRun r.1 rest
    (r2.1, r.2 ++ r2.2)

/-! ## `vad/silero.py`: the VAD state machine -/

/-- The `State` enum of `silero.py` (named `VadState` here). -/
inductive VadState
  | IDLE
  | ACTIVE
  | INACTIVE
deriving DecidableEq, Repr

/-- `SileroVADConfig` (sample-rate fields omitted; they only select the
window size upstream of the state machine). -/
structure SileroVADConfig where
  prob_threshold : ℚ
  db_threshold : ℚ
  required_hits : Nat
  required_misses : Nat
  smoothing_window : Nat
deriving DecidableEq, Repr

/-- What the machine yields: `b"<|PAUSE|>"`, `b"<|RESUME|>"`, or a finished
segment `(probs, dbs, pre-roll ++ buffered bytes)`.  Audio chunks are
modelled as opaque tokens (`Nat`). -/
inductive VadEmit
  | pause
  | resume
  | segment (probs : List ℚ) (dbs : List ℚ) (chunks : List Nat)
deriving DecidableEq, Repr

/-- The `StateMachine` of `silero.py`: current state, the threshold and
window configuration copied from the config, the segment accumulation
buffers, hit/miss counters, smoothing windows and the pre-roll buffer.
Probabilities and decibel values are modelled as rationals; audio chunks as
opaque tokens. -/
structure StateMachine where
  state : VadState
  prob_threshold : ℚ
  db_threshold : ℚ
  required_hits : Nat
  required_misses : Nat
  smoothing_window : Nat
  probs : List ℚ
  dbs : List ℚ
  bytesAcc : List Nat
  miss_count : Nat
  hit_count : Nat
  prob_window : List ℚ
  db_window : List ℚ
  pre_buffer : List Nat
deriving DecidableEq, Repr

/-- `StateMachine.__init__`. -/
def StateMachine.init (config : SileroVADConfig) : StateMachine :=
  { state := VadState.IDLE
    prob_threshold := config.prob_threshold
    db_threshold := config.db_threshold
    required_hits := config.required_hits
    required_misses := config.required_misses
    smoothing_window := config.smoothing_window
    probs := []
    dbs := []
    bytesAcc := []
    miss_count := 0
    hit_count := 0
    prob_window := []
    db_window := []
    pre_buffer := [] }

/-- `collections.deque(maxlen = n)` append: push right, drop from the left
when over capacity. -/
def pushCapped {α : Type} (maxlen : Nat) (l : List α) (x : α) : List α :=
  let l1 := l ++ [x]
  if maxlen < l1.length then l1.drop (l1.length - maxlen) else l1

/-- `np.mean` over a window (the machine only calls it on nonempty
windows). -/
def listMean (l : List ℚ) : ℚ := l.sum / (l.length : ℚ)

/-- `StateMachine.update`. -/
def StateMachine.update (sm : StateMachine) (chunk : Nat) (prob db : ℚ) : StateMachine :=
  { sm with
    probs := sm.probs ++ [prob]
    dbs := sm.dbs ++ [db]
    bytesAcc := sm.bytesAcc ++ [chunk] }

/-- `StateMachine.get_smoothed_values`: push onto both windows, return the
updated machine and the two moving averages. -/
def StateMachine.get_smoothed_values (sm : StateMachine) (prob db : ℚ) :
    StateMachine × ℚ × ℚ :=
  let pw := pushCapped sm.smoothing_window sm.prob_window prob
  let dw := pushCapped sm.smoothing_window sm.db_window db
  ({ sm with prob_window := pw, db_window := dw }, listMean pw, listMean dw)

/-- `StateMachine.process` for one frame.  `prob` is the classifier
probability, `db` the loudness of the chunk (`calculate_db` is modelled
separately over the reals), `chunk` the opaque audio chunk token.  Returns
the updated machine and the list of yielded items. -/
def StateMachine.process (sm : StateMachine) (prob db : ℚ) (chunk : Nat) :
    StateMachine × List VadEmit :=
  let s := sm.get_smoothed_values prob db
  let sm1 := s.1
  let smoothed_prob := s.2.1
  let smoothed_db := s.2.2
  match sm1.state with
  | VadState.IDLE =>
    let sm2 := { sm1 with pre_buffer := pushCapped 20 sm1.pre_buffer chunk }
    if sm2.prob_threshold ≤ smoothed_prob ∧ sm2.db_threshold ≤ smoothed_db then
      let hc := sm2.hit_count + 1
      if sm2.required_hits ≤ hc then
        let sm3 := StateMachine.update { sm2 with state := VadState.ACTIVE }
          chunk smoothed_prob smoothed_db
        ({ sm3 with hit_count := 0 }, [VadEmit.pause])
      else ({ sm2 with hit_count := hc }, [])
    else ({ sm2 with hit_count := 0 }, [])
  | VadState.ACTIVE =>
    let sm2 := sm1.update chunk smoothed_prob smoothed_db
    if sm2.prob_threshold ≤ smoothed_prob ∧ sm2.db_threshold ≤ smoothed_db then
      ({ sm2 with miss_count := 0 }, [])
    else
      let mc := sm2.miss_count + 1
      if sm2.required_misses ≤ mc then
        ({ sm2 with state := VadState.INACTIVE, miss_count := 0 }, [])
      else ({ sm2 with miss_count := mc }, [])
  | VadState.INACTIVE =>
    let sm2 := sm1.update chunk smoothed_prob smoothed_db
    if sm2.prob_threshold ≤ smoothed_prob ∧ sm2.db_threshold ≤ smoothed_db then
      let hc := sm2.hit_count + 1
      if sm2.required_hits ≤ hc then
        ({ sm2 with state := VadState.ACTIVE, hit_count := 0, miss_count := 0 }, [])
      else ({ sm2 with hit_count := hc }, [])
    else
      let sm3 := { sm2 with hit_count := 0 }
      let mc := sm3.miss_count + 1
      if sm3.required_misses ≤ mc then
        let sm4 := { sm3 with state := VadState.IDLE, miss_count := 0 }
        if 30 < sm4.probs.length then
          ({ sm4 with probs := [], dbs := [], bytesAcc := [], pre_buffer := [] },
            [VadEmit.resume,
             VadEmit.segment sm4.probs sm4.dbs (sm4.pre_buffer ++ sm4.bytesAcc)])
        else ({ sm4 with pre_buffer := [] }, [VadEmit.resume])
      else ({ sm3 with miss_count := mc }, [])

/-- A trace of frames fed to `process`, collecting every yield. -/
def StateMachine.run (sm : StateMachine) : List (ℚ × ℚ × Nat) → StateMachine × List VadEmit
  | [] => (sm, [])
  | f :: rest =>
    let r := sm.process f.1 f.2.1 f.2.2
    let r2 := StateMachine.run r.1 rest
    (r2.1, r.2 ++ r2.2)

/-- The mean of the squares of the samples — `np.mean(np.square(audio))` —
over rationals; the RMS of the source is its square root, so
`rms > 0 ↔ 0 < rmsSq`. -/
def rmsSq (audio_data : List ℚ) : ℚ := listMean (audio_data.map (fun x => x * x))

/-- `StateMachine.calculate_db`:
`20 * np.log10(rms + 1e-7) if rms > 0 else -np.inf`.
The result is an extended real; the Python float `-inf` is `⊥`.  This is the
one non-executable definition: its value is a real logarithm, but the branch
condition `rms > 0` is the decidable rational test `0 < rmsSq`. -/
noncomputable def calculate_db (audio_data : List ℚ) : EReal :=
  if 0 < rmsSq audio_data then
    ((20 * Real.logb 10 (Real.sqrt (rmsSq audio_data : ℝ) + 1 / 10 ^ 7) : ℝ) : EReal)
  else ⊥

/-! ## `group_conversation.py`: the round-robin loop -/

/-- `GroupConversationState` (`conversations/types.py` fields used by the
loop): rotation queue, shared transcript, per-member cursors, current
speaker. -/
structure GroupConversationState where
  group_queue : List String
  conversation_history : List String
  memory_index : List (String × Nat)
  current_speaker_uid : Option String
deriving DecidableEq, Repr

/-- Messages the loop broadcasts (the subset the claims observe). -/
inductive GroupMsg
  | control (text : String)
  | fullText (text : String)
  | errorMsg (message : String)
deriving DecidableEq, Repr

/-- `handle_group_member_turn`.  `names` maps a member uid to its character
name, `respond` abstracts `process_member_response` (`Except.error` = the
agent raised; the re-raise escapes the turn before the queue re-append).
Returns the mutated state, `some e` when the turn raised with message `e`,
and the messages broadcast. -/
def handle_group_member_turn (names : String → String)
    (respond : String → Except String String)
    (st : GroupConversationState) (current_member_uid : String) :
    GroupConversationState × Option String × List GroupMsg :=
  let st0 := { st with current_speaker_uid := some current_member_uid }
  let msgs : List GroupMsg :=
    [GroupMsg.control "conversation-chain-start", GroupMsg.fullText "Thinking..."]
  match respond current_member_uid with
  | Except.error e => (st0, some e, msgs)
  | Except.ok full_response =>
    let history1 :=
      if full_response ≠ "" then
        st0.conversation_history ++
          [names current_member_uid ++ ": " ++ full_response]
      else st0.conversation_history
    ({ st0 with
        conversation_history := history1,
        memory_index := aset current_member_uid history1.length st0.memory_index,
        group_queue := st0.group_queue ++ [current_member_uid],
        current_speaker_uid := none },
      none, msgs)

/-- One iteration of the `while state.group_queue:` loop of
`process_group_conversation`: pop the front member, run its turn, and on an
exception report `Error in conversation: …` to the whole group (the loop
swallows the exception and continues). -/
def process_group_conversation_step (names : String → String)
    (respond : String → Except String String)
    (st : GroupConversationState) : GroupConversationState × List GroupMsg :=
  match st.group_queue with
  | [] => (st, [])
  | current_member_uid :: rest =>
    let st1 := { st with group_queue := rest }
    let r := handle_group_member_turn names respond st1 current_member_uid
    match r.2.1 with
    | none => (r.1, r.2.2)
    | some e => (r.1, r.2.2 ++ [GroupMsg.errorMsg ("Error in conversation: " ++ e)])

/-! ## Predicates and auxiliary definitions used by the theorems -/

/-- The mutual-consistency property of the two registry index maps, as the
claim states it: a client maps to a non-empty group id iff that group is
stored and contains the client, and every member of every stored group is
mapped to that group. -/
def MutuallyConsistent (m : ChatGroupManager) : Prop :=
  (∀ c gid, alookup c m.client_group_map = some gid → gid ≠ "" →
    ∃ g, alookup gid m.groups = some g ∧ c ∈ g.members) ∧
  (∀ p ∈ m.groups, ∀ u ∈ p.2.members, alookup u m.client_group_map = some p.1)

/-- A concrete registry state reached from the empty registry by eleven of
the claim's operations: three clients create and immediately leave their own
groups (leaving them registered but ungrouped), `A` creates a group and
invites `B` and `C`, `A` removes itself (the group survives with members
`B, C`), and finally `A` invites `D` — the inviter's empty map entry makes
`add_client_to_group` recreate `group_A`, overwriting the surviving group
and leaving `B` and `C` mapped to a group that no longer contains them. -/
def c10CounterState : ChatGroupManager :=
  let s1 := (create_group_for_client ChatGroupManager.empty "B").1
  let s2 := ((remove_client_from_group s1 "B" "B").getD (s1, false, "")).1
  let s3 := (create_group_for_client s2 "C").1
  let s4 := ((remove_client_from_group s3 "C" "C").getD (s3, false, "")).1
  let s5 := (create_group_for_client s4 "D").1
  let s6 := ((remove_client_from_group s5 "D" "D").getD (s5, false, "")).1
  let s7 := (create_group_for_client s6 "A").1
  let s8 := ((add_client_to_group s7 "A" "B").getD (s7, false, "")).1
  let s9 := ((add_client_to_group s8 "A" "C").getD (s8, false, "")).1
  let s10 := ((remove_client_from_group s9 "A" "A").getD (s9, false, "")).1
  ((add_client_to_group s10 "A" "D").getD (s10, false, "")).1

/-- The structural well-formedness the registry does maintain: unique keys
in both maps, non-empty group ids, duplicate-free member sets, and the
member→map direction of the consistency claim — every member of every
stored group is mapped to exactly that group. -/
structure RegistryWF (m : ChatGroupManager) : Prop where
  map_nodup : (akeys m.client_group_map).Nodup
  groups_nodup : (akeys m.groups).Nodup
  gid_ne : ∀ p ∈ m.groups, p.1 ≠ ""
  members_nodup : ∀ p ∈ m.groups, p.2.members.Nodup
  members_mapped : ∀ p ∈ m.groups, ∀ u ∈ p.2.members,
    alookup u m.client_group_map = some p.1

/-- States reachable from the empty registry by the operations the server
actually performs: client registration (`client_group_map[uid] = ""`, done
once per fresh connection, so the uid is not currently mapped to a group),
`add_client_to_group`, `remove_client_from_group`, `remove_client` and
`cleanup_disconnected_clients`.  (`create_group_for_client` is dead code —
no caller exists in the repository.) -/
inductive ReachableReg : ChatGroupManager → Prop
  | empty : ReachableReg ChatGroupManager.empty
  | register {m : ChatGroupManager} (client_uid : String) :
      ReachableReg m → truthyOpt (alookup client_uid m.client_group_map) = false →
      ReachableReg (register_client m client_uid)
  | add {m m' : ChatGroupManager} {inviter_uid invitee_uid : String} {ok : Bool}
      {msg : String} : ReachableReg m →
      add_client_to_group m inviter_uid invitee_uid = some (m', ok, msg) →
      ReachableReg m'
  | remove {m m' : ChatGroupManager} {remover_uid target_uid : String} {ok : Bool}
      {msg : String} : ReachableReg m →
      remove_client_from_group m remover_uid target_uid = some (m', ok, msg) →
      ReachableReg m'
  | removeClient {m : ChatGroupManager} (client_uid : String) :
      ReachableReg m → ReachableReg (remove_client m client_uid).1
  | cleanup {m : ChatGroupManager} (connected : List String) :
      ReachableReg m → ReachableReg (cleanup_disconnected_clients m connected)

/-- A frame whose smoothed probability and loudness (after this frame is
pushed onto the smoothing windows) both meet their thresholds. -/
def hitFrame (sm : StateMachine) (f : ℚ × ℚ × Nat) : Prop :=
  sm.prob_threshold ≤ (sm.get_smoothed_values f.1 f.2.1).2.1 ∧
  sm.db_threshold ≤ (sm.get_smoothed_values f.1 f.2.1).2.2

/-- A below-threshold frame (the negation of `hitFrame`). -/
def missFrame (sm : StateMachine) (f : ℚ × ℚ × Nat) : Prop :=
  ¬ (sm.prob_threshold ≤ (sm.get_smoothed_values f.1 f.2.1).2.1 ∧
     sm.db_threshold ≤ (sm.get_smoothed_values f.1 f.2.1).2.2)

/-- The invariant of the payload drainer: `K` is the set of sequence numbers
already taken off the internal queue, the cursor sits at the least number
not yet received, everything below the cursor has been sent in order, and
the buffer holds exactly the received payloads at or above the cursor. -/
structure DrainInv {α : Type} (f : Nat → α) (K : List Nat) (st : DrainState α)
    (out : List (Nat × α)) : Prop where
  kNodup : K.Nodup
  below : ∀ i < st.next_to_send, i ∈ K
  notMem : st.next_to_send ∉ K
  outEq : out = (List.range st.next_to_send).map (fun i => (i, f i))
  bufKeys : (akeys st.buffered).Nodup
  bufVals : ∀ p ∈ st.buffered, p.2 = f p.1
  bufPerm : st.buffered.Perm
    ((K.filter (fun k => decide (st.next_to_send ≤ k))).map (fun k => (k, f k)))


instance (sm : StateMachine) (f : ℚ × ℚ × Nat) : Decidable (hitFrame sm f) := by
  unfold hitFrame
  infer_instance

instance (sm : StateMachine) (f : ℚ × ℚ × Nat) : Decidable (missFrame sm f) := by
  unfold missFrame
  infer_instance

/-- A trace of frames that are all hits, each with respect to the machine
state reached when it arrives (the smoothing windows evolve as the trace is
fed). -/
def hitStreak (sm : StateMachine) : List (ℚ × ℚ × Nat) → Bool
  | [] => true
  | f :: rest =>
    decide (hitFrame sm f) && hitStreak (sm.process f.1 f.2.1 f.2.2).1 rest

/-- A trace of frames that are all below threshold, each with respect to
the machine state reached when it arrives. -/
def missStreak (sm : StateMachine) : List (ℚ × ℚ × Nat) → Bool
  | [] => true
  | f :: rest =>
    decide (missFrame sm f) && missStreak (sm.process f.1 f.2.1 f.2.2).1 rest

/-! ## Association-list lemmas -/

@[simp]
theorem akeys_nil {κ α : Type} : akeys ([] : List (κ × α)) = [] := rfl

@[simp]
theorem akeys_cons {κ α : Type} (p : κ × α) (l : List (κ × α)) :
    akeys (p :: l) = p.1 :: akeys l := rfl

@[simp]
theorem akeys_append {κ α : Type} (l l' : List (κ × α)) :
    akeys (l ++ l') = akeys l ++ akeys l' := by
  simp [akeys]

@[simp]
theorem alookup_nil {κ α : Type} [DecidableEq κ] (k : κ) :
    alookup k ([] : List (κ × α)) = none := rfl

theorem alookup_cons {κ α : Type} [DecidableEq κ] (k : κ) (p : κ × α)
    (l : List (κ × α)) :
    alookup k (p :: l) = if p.1 = k then some p.2 else alookup k l := by
  obtain ⟨a, b⟩ := p
  rfl

theorem aset_cons {κ α : Type} [DecidableEq κ] (k : κ) (v : α) (p : κ × α)
    (l : List (κ × α)) :
    aset k v (p :: l) = if p.1 = k then (k, v) :: l else p :: aset k v l := by
  obtain ⟨a, b⟩ := p
  rfl

theorem aremove_cons {κ α : Type} [DecidableEq κ] (k : κ) (p : κ × α)
    (l : List (κ × α)) :
    aremove k (p :: l) = if p.1 = k then l else p :: aremove k l := by
  obtain ⟨a, b⟩ := p
  rfl

theorem alookup_aset_self {κ α : Type} [DecidableEq κ] (k : κ) (v : α)
    (l : List (κ × α)) : alookup k (aset k v l) = some v := by
  induction l with
  | nil => simp [aset, alookup]
  | cons p rest ih =>
    rw [aset_cons]
    by_cases h : p.1 = k
    · rw [if_pos h, alookup_cons, if_pos rfl]
    · rw [if_neg h, alookup_cons, if_neg h]
      exact ih

theorem alookup_aset_ne {κ α : Type} [DecidableEq κ] {k k' : κ} (v : α)
    (l : List (κ × α)) (h : k' ≠ k) : alookup k' (aset k v l) = alookup k' l := by
  have hkk : ¬ (k = k') := fun he => h he.symm
  induction l with
  | nil => simp [aset, alookup_cons, hkk]
  | cons p rest ih =>
    rw [aset_cons]
    by_cases hp : p.1 = k
    · rw [if_pos hp, alookup_cons, alookup_cons, if_neg hkk, if_neg (hp ▸ hkk)]
    · rw [if_neg hp, alookup_cons, alookup_cons]
      by_cases hp' : p.1 = k'
      · rw [if_pos hp', if_pos hp']
      · rw [if_neg hp', if_neg hp']
        exact ih

theorem akeys_aset {κ α : Type} [DecidableEq κ] (k : κ) (v : α) (l : List (κ × α)) :
    akeys (aset k v l) = if k ∈ akeys l then akeys l else akeys l ++ [k] := by
  induction l with
  | nil => simp [aset]
  | cons p rest ih =>
    rw [aset_cons]
    by_cases hp : p.1 = k
    · rw [if_pos hp, akeys_cons, akeys_cons, if_pos (by simp [hp])]
      rw [show ((k, v) : κ × α).1 = p.1 from hp.symm]
    · rw [if_neg hp, akeys_cons, akeys_cons, ih]
      have hne : ¬ (k = p.1) := fun he => hp he.symm
      by_cases hk : k ∈ akeys rest
      · rw [if_pos hk, if_pos (by simp [hk])]
      · rw [if_neg hk, if_neg (by simp [hne, hk]), List.cons_append]

theorem akeys_aset_nodup {κ α : Type} [DecidableEq κ] (k : κ) (v : α)
    {l : List (κ × α)} (h : (akeys l).Nodup) : (akeys (aset k v l)).Nodup := by
  rw [akeys_aset]
  by_cases hk : k ∈ akeys l
  · rwa [if_pos hk]
  · rw [if_neg hk]
    simp only [List.nodup_append, List.nodup_cons, List.nodup_nil]
    exact ⟨h, by simp, by simpa using hk⟩

theorem mem_of_alookup {κ α : Type} [DecidableEq κ] {k : κ} {v : α}
    {l : List (κ × α)} (h : alookup k l = some v) : (k, v) ∈ l := by
  induction l with
  | nil => simp [alookup] at h
  | cons p rest ih =>
    rw [alookup_cons] at h
    by_cases hp : p.1 = k
    · rw [if_pos hp] at h
      obtain ⟨a, b⟩ := p
      cases hp
      cases h
      exact List.mem_cons_self _ _
    · rw [if_neg hp] at h
      exact List.mem_cons_of_mem _ (ih h)

theorem alookup_eq_none_iff {κ α : Type} [DecidableEq κ] {k : κ}
    {l : List (κ × α)} : alookup k l = none ↔ k ∉ akeys l := by
  induction l with
  | nil => simp
  | cons p rest ih =>
    rw [alookup_cons, akeys_cons]
    by_cases hp : p.1 = k
    · simp [hp]
    · simp only [if_neg hp, List.mem_cons, ih]
      constructor
      · rintro hn (h | h)
        · exact hp h.symm
        · exact hn h
      · intro hn
        exact fun h => hn (Or.inr h)

theorem alookup_of_mem_nodup {κ α : Type} [DecidableEq κ] {k : κ} {v : α}
    {l : List (κ × α)} (hnd : (akeys l).Nodup) (h : (k, v) ∈ l) :
    alookup k l = some v := by
  induction l with
  | nil => simp at h
  | cons p rest ih =>
    rw [akeys_cons, List.nodup_cons] at hnd
    rw [alookup_cons]
    rcases List.mem_cons.mp h with h | h
    · rw [← h]
      simp
    · have hk : k ∈ akeys rest := List.mem_map_of_mem Prod.fst h
      have hp : ¬ (p.1 = k) := fun he => hnd.1 (he ▸ hk)
      rw [if_neg hp]
      exact ih hnd.2 h

theorem mem_aremove_of_mem {κ α : Type} [DecidableEq κ] {k : κ} {p : κ × α}
    {l : List (κ × α)} (h : p ∈ aremove k l) : p ∈ l := by
  induction l with
  | nil => simp [aremove] at h
  | cons q rest ih =>
    rw [aremove_cons] at h
    by_cases hq : q.1 = k
    · rw [if_pos hq] at h
      exact List.mem_cons_of_mem _ h
    · rw [if_neg hq] at h
      rcases List.mem_cons.mp h with h | h
      · exact h ▸ List.mem_cons_self _ _
      · exact List.mem_cons_of_mem _ (ih h)

theorem alookup_aremove_ne {κ α : Type} [DecidableEq κ] {k k' : κ}
    (l : List (κ × α)) (h : k' ≠ k) : alookup k' (aremove k l) = alookup k' l := by
  induction l with
  | nil => simp [aremove]
  | cons p rest ih =>
    rw [aremove_cons]
    by_cases hp : p.1 = k
    · rw [if_pos hp, alookup_cons, if_neg (fun he : p.1 = k' => h (he ▸ hp ▸ rfl))]
    · rw [if_neg hp, alookup_cons, alookup_cons]
      by_cases hp' : p.1 = k'
      · rw [if_pos hp', if_pos hp']
      · rw [if_neg hp', if_neg hp']
        exact ih

theorem akeys_aremove_sub {κ α : Type} [DecidableEq κ] (k : κ) (l : List (κ × α)) :
    ∀ x, x ∈ akeys (aremove k l) → x ∈ akeys l := by
  intro x hx
  obtain ⟨p, hp, hpx⟩ := List.mem_map.mp hx
  exact hpx ▸ List.mem_map_of_mem Prod.fst (mem_aremove_of_mem hp)

theorem akeys_aremove_nodup {κ α : Type} [DecidableEq κ] (k : κ)
    {l : List (κ × α)} (h : (akeys l).Nodup) : (akeys (aremove k l)).Nodup := by
  induction l with
  | nil => simp [aremove]
  | cons p rest ih =>
    rw [akeys_cons, List.nodup_cons] at h
    rw [aremove_cons]
    by_cases hp : p.1 = k
    · rw [if_pos hp]
      exact h.2
    · rw [if_neg hp, akeys_cons, List.nodup_cons]
      exact ⟨fun hc => h.1 (akeys_aremove_sub k rest _ hc), ih h.2⟩

theorem alookup_aremove_self {κ α : Type} [DecidableEq κ] (k : κ)
    {l : List (κ × α)} (h : (akeys l).Nodup) : alookup k (aremove k l) = none := by
  induction l with
  | nil => simp [aremove]
  | cons p rest ih =>
    rw [akeys_cons, List.nodup_cons] at h
    rw [aremove_cons]
    by_cases hp : p.1 = k
    · rw [if_pos hp, alookup_eq_none_iff]
      exact hp ▸ h.1
    · rw [if_neg hp, alookup_cons, if_neg hp]
      exact ih h.2

theorem mem_akeys_aremove {κ α : Type} [DecidableEq κ] {k k' : κ}
    (l : List (κ × α)) (h : k' ≠ k) :
    (k' ∈ akeys (aremove k l)) ↔ k' ∈ akeys l := by
  induction l with
  | nil => simp [aremove]
  | cons p rest ih =>
    rw [aremove_cons]
    by_cases hp : p.1 = k
    · rw [if_pos hp, akeys_cons, List.mem_cons]
      constructor
      · exact Or.inr
      · rintro (hx | hx)
        · exact absurd (hx.trans hp) h
        · exact hx
    · rw [if_neg hp, akeys_cons, akeys_cons, List.mem_cons, List.mem_cons, ih]

theorem mem_aset_iff {κ α : Type} [DecidableEq κ] {k : κ} {v : α} {p : κ × α}
    {l : List (κ × α)} (hnd : (akeys l).Nodup) :
    p ∈ aset k v l ↔ p = (k, v) ∨ (p ∈ l ∧ p.1 ≠ k) := by
  induction l with
  | nil => simp [aset]
  | cons q rest ih =>
    rw [akeys_cons, List.nodup_cons] at hnd
    rw [aset_cons]
    by_cases hq : q.1 = k
    · rw [if_pos hq, List.mem_cons, List.mem_cons]
      constructor
      · rintro (h | h)
        · exact Or.inl h
        · refine Or.inr ⟨Or.inr h, fun hk => ?_⟩
          exact hnd.1 (hq ▸ hk ▸ List.mem_map_of_mem Prod.fst h)
      · rintro (h | ⟨h | h, hne⟩)
        · exact Or.inl h
        · exact absurd (h ▸ hq) hne
        · exact Or.inr h
    · rw [if_neg hq, List.mem_cons, List.mem_cons, ih hnd.2]
      constructor
      · rintro (h | h | h)
        · exact Or.inr ⟨Or.inl h, h ▸ hq⟩
        · exact Or.inl h
        · exact Or.inr ⟨Or.inr h.1, h.2⟩
      · rintro (h | ⟨h | h, hne⟩)
        · exact Or.inr (Or.inl h)
        · exact Or.inl h
        · exact Or.inr (Or.inr ⟨h, hne⟩)

theorem aset_of_not_mem {κ α : Type} [DecidableEq κ] {k : κ} (v : α)
    {l : List (κ × α)} (h : k ∉ akeys l) : aset k v l = l ++ [(k, v)] := by
  induction l with
  | nil => simp [aset]
  | cons p rest ih =>
    rw [akeys_cons, List.mem_cons] at h
    push_neg at h
    rw [aset_cons, if_neg (fun he => h.1 he.symm), List.cons_append, ih h.2]

theorem aremove_length {κ α : Type} [DecidableEq κ] {k : κ} {v : α}
    {l : List (κ × α)} (h : alookup k l = some v) :
    (aremove k l).length + 1 = l.length := by
  induction l with
  | nil => simp at h
  | cons p rest ih =>
    rw [alookup_cons] at h
    rw [aremove_cons]
    by_cases hp : p.1 = k
    · rw [if_pos hp, List.length_cons]
    · rw [if_neg hp] at h
      rw [if_neg hp, List.length_cons, List.length_cons, ih h]

/-! ## C8: loudness floor -/

/-- C8 counterexample: on an all-zero (silent) frame the RMS is `0`, so
`calculate_db` takes the `else -np.inf` branch and *does* evaluate to `-∞`
— the `1e-7` floor is only applied on the `rms > 0` branch, contradicting
the claim that the floor prevents `-∞` on silent input. -/
theorem C8_counterexample : calculate_db [0, 0, 0] = ⊥ := by
  have h : rmsSq [0, 0, 0] = 0 := by norm_num [rmsSq, listMean]
  rw [calculate_db, h, if_neg (lt_irrefl 0)]

/-- C8 amended: for every frame with positive RMS energy
(equivalently, positive mean square) the computed decibel figure is a real
number, never `-∞`; only exactly-silent frames (RMS `= 0`) produce `-∞`. -/
theorem C8_amended (audio_data : List ℚ) (h : 0 < rmsSq audio_data) :
    calculate_db audio_data ≠ ⊥ := by
  rw [calculate_db, if_pos h]
  exact EReal.coe_ne_bot _

/-- Witness for `C8_amended` at the one-sample frame `[1]`. -/
theorem C8_amended_witness : 0 < rmsSq [1] ∧ calculate_db [1] ≠ ⊥ :=
  ⟨by norm_num [rmsSq, listMean], C8_amended [1] (by norm_num [rmsSq, listMean])⟩

/-! ## C9: round-robin re-append -/

/-- C9 counterexample: with queue `["A", "B"]` and member `A`'s turn
raising, the loop reports the error to the group but `A` is *not* pushed
back onto the rotation queue — the next queue is `["B"]`, so an erroring
member is dropped, contradicting the claim that the member is re-appended
after every turn including an erroring one. -/
theorem C9_counterexample :
    process_group_conversation_step (fun u => u)
        (fun u => if u = "A" then Except.error "boom" else Except.ok "hi")
        ⟨["A", "B"], [], [], none⟩
      = (⟨["B"], [], [], some "A"⟩,
         [GroupMsg.control "conversation-chain-start",
          GroupMsg.fullText "Thinking...",
          GroupMsg.errorMsg "Error in conversation: boom"]) ∧
    "A" ∉ (process_group_conversation_step (fun u => u)
        (fun u => if u = "A" then Except.error "boom" else Except.ok "hi")
        ⟨["A", "B"], [], [], none⟩).1.group_queue := by
  constructor
  · rfl
  · decide

/-- C9 amended: after a *successful* turn the member is pushed back onto
the rotation queue (rotation continues over the unchanged member set), but
a turn that raises is reported to the whole group as
`Error in conversation: …` and the member is dropped from the queue — the
`state.group_queue.append` at the end of `handle_group_member_turn` is
skipped when the turn raises. -/
theorem C9_amended (names : String → String)
    (respond : String → Except String String) (st : GroupConversationState)
    (uid : String) (rest : List String) (hq : st.group_queue = uid :: rest) :
    (∀ r, respond uid = Except.ok r →
      (process_group_conversation_step names respond st).1.group_queue
        = rest ++ [uid]) ∧
    (∀ e, respond uid = Except.error e →
      (process_group_conversation_step names respond st).1.group_queue = rest ∧
      GroupMsg.errorMsg ("Error in conversation: " ++ e)
        ∈ (process_group_conversation_step names respond st).2) := by
  constructor
  · intro r hr
    simp [process_group_conversation_step, hq, handle_group_member_turn, hr]
  · intro e he
    simp [process_group_conversation_step, hq, handle_group_member_turn, he]

/-- Witness for `C9_amended`: a concrete two-member queue where `"A"`
answers successfully, and one where `"A"` raises. -/
theorem C9_amended_witness :
    (process_group_conversation_step (fun u => u) (fun _ => Except.ok "hi")
        ⟨["A", "B"], [], [], none⟩).1.group_queue = ["B"] ++ ["A"] ∧
    ((process_group_conversation_step (fun u => u) (fun _ => Except.error "boom")
        ⟨["A", "B"], [], [], none⟩).1.group_queue = ["B"] ∧
      GroupMsg.errorMsg ("Error in conversation: " ++ "boom")
        ∈ (process_group_conversation_step (fun u => u)
            (fun _ => Except.error "boom") ⟨["A", "B"], [], [], none⟩).2) :=
  ⟨(C9_amended (fun u => u) (fun _ => Except.ok "hi")
      ⟨["A", "B"], [], [], none⟩ "A" ["B"] rfl).1 "hi" rfl,
   (C9_amended (fun u => u) (fun _ => Except.error "boom")
      ⟨["A", "B"], [], [], none⟩ "A" ["B"] rfl).2 "boom" rfl⟩

/-! ## C2: single-flight conversation scheduling -/

/-- C2 counterexample: for a *single-client* key with a live (non-done)
task, `handle_conversation_trigger` is not a no-op — the single-client
branch has no "already running" guard, so a new task is stored over the
live one. -/
theorem C2_counterexample :
    handle_conversation_trigger ChatGroupManager.empty "a"
        [("a", ⟨0, false⟩)] ⟨1, false⟩
      = [("a", ⟨1, false⟩)] ∧
    handle_conversation_trigger ChatGroupManager.empty "a"
        [("a", ⟨0, false⟩)] ⟨1, false⟩
      ≠ [("a", ⟨0, false⟩)] := by
  constructor
  · rfl
  · decide

/-- C2 amended: the "no-op while a live task exists" guard holds for
*group* keys only (a client in a group of more than one member); for a
single-client key `handle_conversation_trigger` always stores a freshly
spawned task, replacing whatever handle was there. -/
theorem C2_amended :
    (∀ (m : ChatGroupManager) (client_uid : String) (g : ChatGroup)
        (tasks : List (String × ConvTask)) (t new_task : ConvTask),
      get_client_group m client_uid = some g → 1 < g.members.length →
      alookup g.group_id tasks = some t → t.done = false →
      handle_conversation_trigger m client_uid tasks new_task = tasks) ∧
    (∀ (m : ChatGroupManager) (client_uid : String)
        (tasks : List (String × ConvTask)) (new_task : ConvTask),
      (∀ g, get_client_group m client_uid = some g → g.members.length ≤ 1) →
      handle_conversation_trigger m client_uid tasks new_task
        = aset client_uid new_task tasks) := by
  constructor
  · intro m c g tasks t nt hg hlen ht hd
    simp [handle_conversation_trigger, hg, hlen, ht, hd]
  · intro m c tasks nt h
    cases hg : get_client_group m c with
    | none => simp [handle_conversation_trigger, hg]
    | some g =>
      have hle := h g hg
      simp [handle_conversation_trigger, hg, Nat.not_lt.mpr hle]

/-- Witness for `C2_amended`: a two-member group whose key holds a live
task (trigger is a no-op), and an ungrouped client (task always stored). -/
theorem C2_amended_witness :
    handle_conversation_trigger
        ⟨[("o", "group_o"), ("b", "group_o")],
         [("group_o", ⟨"group_o", "o", ["o", "b"]⟩)]⟩ "o"
        [("group_o", ⟨0, false⟩)] ⟨1, false⟩
      = [("group_o", ⟨0, false⟩)] ∧
    handle_conversation_trigger ChatGroupManager.empty "a" [] ⟨1, false⟩
      = aset "a" ⟨1, false⟩ [] :=
  ⟨C2_amended.1 ⟨[("o", "group_o"), ("b", "group_o")],
      [("group_o", ⟨"group_o", "o", ["o", "b"]⟩)]⟩ "o"
      ⟨"group_o", "o", ["o", "b"]⟩ [("group_o", ⟨0, false⟩)] ⟨0, false⟩ ⟨1, false⟩
      rfl (by decide) rfl rfl,
   C2_amended.2 ChatGroupManager.empty "a" [] ⟨1, false⟩
     (fun g hg => by
       rw [show get_client_group ChatGroupManager.empty "a" = none from rfl] at hg
       exact Option.noConfusion hg)⟩

/-! ## C4: deletion of groups with at most one remaining member -/

/-- C4 counterexample: a non-owner member `B` of the 2-member group
`group_O` disconnects (`remove_client`), and the group survives with
exactly one remaining member `O` — `remove_client` only deletes a group
when it is left *empty* (or when the departing owner leaves nobody), so the
disconnect path does not delete a 1-member group, contradicting the claim
that every mutation deletes groups with at most one remaining member. -/
theorem C4_counterexample :
    alookup "group_O"
        (remove_client
          ⟨[("O", "group_O"), ("B", "group_O")],
           [("group_O", ⟨"group_O", "O", ["O", "B"]⟩)]⟩ "B").1.groups
      = some ⟨"group_O", "O", ["O"]⟩ := rfl

/-- C4 amended: `remove_client_from_group` does delete any group left with
at most one remaining member (and keeps it with its surviving members
otherwise), but the disconnect-path `remove_client` keeps a group whose
non-owner member leaves at least one survivor — even exactly one. -/
theorem C4_amended :
    (∀ (m : ChatGroupManager) (r t gid : String) (g : ChatGroup),
      (akeys m.groups).Nodup →
      alookup t m.client_group_map = some gid → gid ≠ "" →
      alookup gid m.groups = some g →
      (r = g.owner_uid ∨ r = t) → t ∈ g.members →
      ∃ m' msg, remove_client_from_group m r t = some (m', true, msg) ∧
        (((serase t g.members).length ≤ 1 → alookup gid m'.groups = none) ∧
         (1 < (serase t g.members).length →
           alookup gid m'.groups
             = some { g with members := serase t g.members }))) ∧
    (∀ (m : ChatGroupManager) (c gid : String) (g : ChatGroup),
      alookup c m.client_group_map = some gid → gid ≠ "" →
      alookup gid m.groups = some g →
      g.owner_uid ≠ c → c ∈ g.members → serase c g.members ≠ [] →
      alookup gid (remove_client m c).1.groups
        = some { g with members := serase c g.members }) := by
  constructor
  · intro m r t gid g hnd hmap hgid hg hr hmem
    have htr : truthyOpt (alookup t m.client_group_map) = true := by
      rw [hmap]
      simpa [truthyOpt] using hgid
    have hcond : ¬ (r ≠ g.owner_uid ∧ r ≠ t) := by
      rcases hr with h | h
      · exact fun hc => hc.1 h
      · exact fun hc => hc.2 h
    rw [remove_client_from_group, hmap]
    rw [if_neg (not_not_intro (show truthyOpt (some gid) = true by
      simp [truthyOpt, hgid]))]
    simp only [Option.getD_some, hg]
    rw [if_neg hcond, if_neg (not_not_intro hmem)]
    by_cases hlen : (serase t g.members).length ≤ 1
    · rw [if_pos hlen]
      cases hs : serase t g.members with
      | nil =>
        refine ⟨_, _, rfl, fun _ => alookup_aremove_self gid hnd, fun hl => ?_⟩
        simp at hl
      | cons o rest =>
        refine ⟨_, _, rfl, fun _ => alookup_aremove_self gid hnd, fun hl => ?_⟩
        rw [hs] at hlen
        simp only [List.length_cons] at hlen hl
        omega
    · rw [if_neg hlen]
      refine ⟨_, _, rfl, fun hl => absurd hl hlen, fun _ => ?_⟩
      exact alookup_aset_self gid _ m.groups
  · intro m c gid g hmap hgid hg howner hmem hne
    simp only [remove_client, hmap]
    rw [if_neg hgid]
    simp only [hg]
    rw [if_pos hmem]
    rw [if_neg (fun h => howner h)]
    rw [if_neg (fun h : (serase c g.members).length = 0 =>
      hne (List.length_eq_zero.mp h))]
    exact alookup_aset_self gid _ m.groups

/-- Witness for `C4_amended`: the owner `O` removes `B` from the 2-member
group `group_O` (the group is deleted), and the non-owner `B` of the same
group disconnects (the group survives with the single member `O`). -/
theorem C4_amended_witness :
    (∃ m' msg,
      remove_client_from_group
          ⟨[("O", "group_O"), ("B", "group_O")],
           [("group_O", ⟨"group_O", "O", ["O", "B"]⟩)]⟩ "O" "B"
        = some (m', true, msg) ∧
      (((serase "B" ["O", "B"]).length ≤ 1 → alookup "group_O" m'.groups = none) ∧
       (1 < (serase "B" ["O", "B"]).length →
         alookup "group_O" m'.groups
           = some { group_id := "group_O", owner_uid := "O",
                    members := serase "B" ["O", "B"] }))) ∧
    alookup "group_O"
        (remove_client
          ⟨[("O", "group_O"), ("B", "group_O")],
           [("group_O", ⟨"group_O", "O", ["O", "B"]⟩)]⟩ "B").1.groups
      = some { group_id := "group_O", owner_uid := "O",
               members := serase "B" ["O", "B"] } := by
  constructor
  · exact C4_amended.1
      ⟨[("O", "group_O"), ("B", "group_O")],
       [("group_O", ⟨"group_O", "O", ["O", "B"]⟩)]⟩ "O" "B" "group_O"
      ⟨"group_O", "O", ["O", "B"]⟩ (by decide) rfl (by decide) rfl
      (Or.inl rfl) (by decide)
  · exact C4_amended.2
      ⟨[("O", "group_O"), ("B", "group_O")],
       [("group_O", ⟨"group_O", "O", ["O", "B"]⟩)]⟩ "B" "group_O"
      ⟨"group_O", "O", ["O", "B"]⟩ rfl (by decide) rfl (by decide) (by decide)
      (by decide)

/-! ## C5: ownership transfer when the owner leaves -/

/-- C5 counterexample: the owner `A` of the 3-member group `group_A`
removes itself via `remove_client_from_group`; the group survives with
members `B, C` but `owner_uid` is still `A`, which is no longer a member —
the remove operation never transfers ownership, contradicting the claim
that whenever the owner leaves a surviving group its `owner_uid` is one of
the remaining members. -/
theorem C5_counterexample :
    remove_client_from_group
        ⟨[("A", "group_A"), ("B", "group_A"), ("C", "group_A")],
         [("group_A", ⟨"group_A", "A", ["A", "B", "C"]⟩)]⟩ "A" "A"
      = some (⟨[("A", ""), ("B", "group_A"), ("C", "group_A")],
          [("group_A", ⟨"group_A", "A", ["B", "C"]⟩)]⟩, true,
          "Successfully removed A from the group") ∧
    "A" ∉ (["B", "C"] : List String) := by
  constructor
  · rfl
  · decide

/-- C5 amended: ownership transfer happens only on the disconnect path.
`remove_client_from_group` leaves `owner_uid` untouched in the surviving
group (so a departed owner can remain recorded as owner), while
`remove_client` of the owner with at least one survivor does assign
ownership to one of the remaining members. -/
theorem C5_amended :
    (∀ (m : ChatGroupManager) (r t gid : String) (g : ChatGroup),
      alookup t m.client_group_map = some gid → gid ≠ "" →
      alookup gid m.groups = some g →
      (r = g.owner_uid ∨ r = t) → t ∈ g.members →
      1 < (serase t g.members).length →
      ∃ m' msg, remove_client_from_group m r t = some (m', true, msg) ∧
        alookup gid m'.groups = some { g with members := serase t g.members } ∧
        ({ g with members := serase t g.members } : ChatGroup).owner_uid
          = g.owner_uid) ∧
    (∀ (m : ChatGroupManager) (c gid : String) (g : ChatGroup)
        (o : String) (rest : List String),
      alookup c m.client_group_map = some gid → gid ≠ "" →
      alookup gid m.groups = some g →
      g.owner_uid = c → c ∈ g.members → serase c g.members = o :: rest →
      alookup gid (remove_client m c).1.groups
        = some ⟨g.group_id, o, o :: rest⟩ ∧ o ∈ serase c g.members) := by
  constructor
  · intro m r t gid g hmap hgid hg hr hmem hlen
    have hcond : ¬ (r ≠ g.owner_uid ∧ r ≠ t) := by
      rcases hr with h | h
      · exact fun hc => hc.1 h
      · exact fun hc => hc.2 h
    rw [remove_client_from_group, hmap]
    rw [if_neg (not_not_intro (show truthyOpt (some gid) = true by
      simp [truthyOpt, hgid]))]
    simp only [Option.getD_some, hg]
    rw [if_neg hcond, if_neg (not_not_intro hmem), if_neg (Nat.not_le.mpr hlen)]
    exact ⟨_, _, rfl, alookup_aset_self gid _ m.groups, trivial⟩
  · intro m c gid g o rest hmap hgid hg howner hmem hs
    constructor
    · simp only [remove_client, hmap]
      rw [if_neg hgid]
      simp only [hg]
      rw [if_pos hmem, if_pos howner, hs]
      exact alookup_aset_self gid _ m.groups
    · rw [hs]
      exact List.mem_cons_self o rest

/-- Witness for `C5_amended`: the owner of a 3-member group removes itself
(stale owner kept), and the owner of a 2-member group disconnects
(ownership passes to the survivor). -/
theorem C5_amended_witness :
    (∃ m' msg,
      remove_client_from_group
          ⟨[("A", "group_A"), ("B", "group_A"), ("C", "group_A")],
           [("group_A", ⟨"group_A", "A", ["A", "B", "C"]⟩)]⟩ "A" "A"
        = some (m', true, msg) ∧
      alookup "group_A" m'.groups
        = some { group_id := "group_A", owner_uid := "A",
                 members := serase "A" ["A", "B", "C"] } ∧
      ({ group_id := "group_A", owner_uid := "A",
         members := serase "A" ["A", "B", "C"] } : ChatGroup).owner_uid = "A") ∧
    (alookup "group_A"
        (remove_client
          ⟨[("A", "group_A"), ("B", "group_A")],
           [("group_A", ⟨"group_A", "A", ["A", "B"]⟩)]⟩ "A").1.groups
      = some ⟨"group_A", "B", ["B"]⟩ ∧
      "B" ∈ serase "A" ["A", "B"]) :=
  ⟨C5_amended.1
    ⟨[("A", "group_A"), ("B", "group_A"), ("C", "group_A")],
     [("group_A", ⟨"group_A", "A", ["A", "B", "C"]⟩)]⟩ "A" "A" "group_A"
    ⟨"group_A", "A", ["A", "B", "C"]⟩ rfl (by decide) rfl (Or.inl rfl)
    (by decide) (by decide),
   C5_amended.2
    ⟨[("A", "group_A"), ("B", "group_A")],
     [("group_A", ⟨"group_A", "A", ["A", "B"]⟩)]⟩ "A" "group_A"
    ⟨"group_A", "A", ["A", "B"]⟩ "B" [] rfl (by decide) rfl rfl (by decide)
    (by decide)⟩

/-! ## C6: invalid group operations leave the registry unchanged -/

/-- C6: each invalid group operation — inviting a client unknown to the
registry, inviting a client already in a group, and a removal attempted by
someone who is neither the group owner nor the target — returns
`(ok = False, reason)` and returns the registry exactly as it was: both
`client_group_map` and `groups` are the very same state `m`. -/
theorem C6_invalid_ops_no_change :
    (∀ (m : ChatGroupManager) (inviter invitee : String),
      alookup invitee m.client_group_map = none →
      add_client_to_group m inviter invitee
        = some (m, false, "Invitee " ++ invitee ++ " does not exist")) ∧
    (∀ (m : ChatGroupManager) (inviter invitee gid : String),
      alookup invitee m.client_group_map = some gid → gid ≠ "" →
      add_client_to_group m inviter invitee
        = some (m, false, "Invitee " ++ invitee ++ " is already in a group")) ∧
    (∀ (m : ChatGroupManager) (r t gid : String) (g : ChatGroup),
      alookup t m.client_group_map = some gid → gid ≠ "" →
      alookup gid m.groups = some g →
      r ≠ g.owner_uid → r ≠ t →
      remove_client_from_group m r t
        = some (m, false, "Only group owner or self can remove members")) := by
  refine ⟨?_, ?_, ?_⟩
  · intro m inviter invitee h
    rw [add_client_to_group, if_pos (by rw [h]; rfl)]
  · intro m inviter invitee gid h hgid
    rw [add_client_to_group, if_neg (by rw [h]; simp),
      if_pos (by rw [h]; simp [truthyOpt, hgid])]
  · intro m r t gid g hmap hgid hg hro hrt
    rw [remove_client_from_group, hmap]
    rw [if_neg (not_not_intro (show truthyOpt (some gid) = true by
      simp [truthyOpt, hgid]))]
    simp only [Option.getD_some, hg]
    rw [if_pos ⟨hro, hrt⟩]

/-- Witness for `C6_invalid_ops_no_change`: a registry with one 2-member
group and one ungrouped client, exercising all three invalid operations. -/
theorem C6_invalid_ops_no_change_witness :
    (add_client_to_group
        ⟨[("A", "group_A"), ("B", "group_A")],
         [("group_A", ⟨"group_A", "A", ["A", "B"]⟩)]⟩ "A" "Z"
      = some (⟨[("A", "group_A"), ("B", "group_A")],
          [("group_A", ⟨"group_A", "A", ["A", "B"]⟩)]⟩, false,
          "Invitee " ++ "Z" ++ " does not exist")) ∧
    (add_client_to_group
        ⟨[("A", "group_A"), ("B", "group_A")],
         [("group_A", ⟨"group_A", "A", ["A", "B"]⟩)]⟩ "A" "B"
      = some (⟨[("A", "group_A"), ("B", "group_A")],
          [("group_A", ⟨"group_A", "A", ["A", "B"]⟩)]⟩, false,
          "Invitee " ++ "B" ++ " is already in a group")) ∧
    (remove_client_from_group
        ⟨[("A", "group_A"), ("B", "group_A"), ("C", "")],
         [("group_A", ⟨"group_A", "A", ["A", "B"]⟩)]⟩ "C" "B"
      = some (⟨[("A", "group_A"), ("B", "group_A"), ("C", "")],
          [("group_A", ⟨"group_A", "A", ["A", "B"]⟩)]⟩, false,
          "Only group owner or self can remove members")) :=
  ⟨C6_invalid_ops_no_change.1
      ⟨[("A", "group_A"), ("B", "group_A")],
       [("group_A", ⟨"group_A", "A", ["A", "B"]⟩)]⟩ "A" "Z" rfl,
   C6_invalid_ops_no_change.2.1
      ⟨[("A", "group_A"), ("B", "group_A")],
       [("group_A", ⟨"group_A", "A", ["A", "B"]⟩)]⟩ "A" "B" "group_A" rfl
      (by decide),
   C6_invalid_ops_no_change.2.2
      ⟨[("A", "group_A"), ("B", "group_A"), ("C", "")],
       [("group_A", ⟨"group_A", "A", ["A", "B"]⟩)]⟩ "C" "B" "group_A"
      ⟨"group_A", "A", ["A", "B"]⟩ rfl (by decide) rfl (by decide) (by decide)⟩

/-! ## Drainer lemmas (C1, C3) -/

theorem aremove_eq_filter {κ α : Type} [DecidableEq κ] (k : κ) {l : List (κ × α)}
    (h : (akeys l).Nodup) : aremove k l = l.filter (fun p => decide (p.1 ≠ k)) := by
  induction l with
  | nil => rfl
  | cons q rest ih =>
    rw [akeys_cons, List.nodup_cons] at h
    rw [aremove_cons]
    by_cases hq : q.1 = k
    · rw [if_pos hq, List.filter_cons_of_neg (by simp [hq])]
      symm
      apply List.filter_eq_self.mpr
      intro p hp
      have : p.1 ≠ k := by
        intro he
        exact h.1 (hq ▸ he ▸ List.mem_map_of_mem Prod.fst hp)
      simpa using this
    · rw [if_neg hq, List.filter_cons_of_pos (by simpa using hq), ih h.2]

theorem akeys_map_key {α : Type} (f : Nat → α) (l : List Nat) :
    akeys (l.map fun k => (k, f k)) = l := by
  simp only [akeys, List.map_map]
  exact List.map_id'' (fun k => rfl) l

theorem flushCondEq {next m : Nat} (h : next < m) (k : Nat) :
    ((decide (k < next + 1) || decide (m ≤ k)) && decide (k ≠ next))
      = (decide (k < next) || decide (m ≤ k)) := by
  by_cases h1 : k < next
  · have h2 : k < next + 1 := by omega
    have h3 : k ≠ next := by omega
    simp [h1, h2, h3]
  · by_cases h2 : k = next
    · subst h2
      have h3 : ¬ m ≤ k := by omega
      simp [h3]
    · have h3 : ¬ k < next + 1 := by omega
      simp [h1, h2, h3]

theorem flushCondEq2 {next m : Nat} (h : next ≤ m) (x : Nat) :
    ((decide (x < next) || decide (m ≤ x)) && decide (next ≤ x)) = decide (m ≤ x) := by
  by_cases h1 : x < next
  · have h2 : ¬ next ≤ x := by omega
    have h3 : ¬ m ≤ x := by omega
    simp [h1, h2, h3]
  · have h2 : next ≤ x := by omega
    simp [h1, h2]

/-- Specification of the flush loop: starting from the cursor `next`, it
sends the payloads of the maximal consecutive run `next, next+1, …, m-1`
present in the buffer (in increasing order), stops at the first missing
number `m`, and removes exactly the flushed entries from the buffer. -/
theorem drainFlushAux_spec {α : Type} (f : Nat → α) :
    ∀ (fuel : Nat) (buf : List (Nat × α)) (next : Nat),
      buf.length ≤ fuel → (akeys buf).Nodup → (∀ p ∈ buf, p.2 = f p.1) →
      ∃ m, next ≤ m ∧
        (∀ i, next ≤ i → i < m → i ∈ akeys buf) ∧
        m ∉ akeys buf ∧
        drainFlushAux fuel buf next
          = (buf.filter (fun p => decide (p.1 < next) || decide (m ≤ p.1)), m,
             (List.range' next (m - next)).map (fun i => (i, f i))) := by
  intro fuel
  induction fuel with
  | zero =>
    intro buf next hlen hnd hv
    have hb : buf = [] := List.length_eq_zero.mp (Nat.le_zero.mp hlen)
    subst hb
    exact ⟨next, le_refl next, fun i h1 h2 => absurd h2 (Nat.not_lt.mpr h1),
      by simp, by simp [drainFlushAux]⟩
  | succ fuel ih =>
    intro buf next hlen hnd hv
    cases hl : alookup next buf with
    | none =>
      refine ⟨next, le_refl next, fun i h1 h2 => absurd h2 (Nat.not_lt.mpr h1),
        alookup_eq_none_iff.mp hl, ?_⟩
      rw [drainFlushAux]
      simp only [hl, Nat.sub_self]
      rw [List.filter_eq_self.mpr (fun p _ => by
        by_cases hc : p.1 < next
        · simp [hc]
        · simp [hc, Nat.le_of_not_lt hc])]
      simp [List.range']
    | some v =>
      have hvnext : v = f next := hv (next, v) (mem_of_alookup hl)
      have hlen' : (aremove next buf).length ≤ fuel := by
        have := aremove_length hl
        omega
      have hnd' := akeys_aremove_nodup next hnd
      have hv' : ∀ p ∈ aremove next buf, p.2 = f p.1 :=
        fun p hp => hv p (mem_aremove_of_mem hp)
      obtain ⟨m, hm1, hm2, hm3, hm4⟩ := ih (aremove next buf) (next + 1) hlen' hnd' hv'
      have hnextm : next < m := hm1
      refine ⟨m, Nat.le_of_lt hnextm, ?_, ?_, ?_⟩
      · intro i h1 h2
        rcases Nat.eq_or_lt_of_le h1 with he | hlt
        · exact he ▸ List.mem_map_of_mem Prod.fst (mem_of_alookup hl)
        · exact akeys_aremove_sub next buf i (hm2 i hlt h2)
      · intro hc
        have hmne : m ≠ next := by omega
        exact hm3 ((mem_akeys_aremove buf hmne).mpr hc)
      · rw [drainFlushAux]
        simp only [hl, hm4]
        refine Prod.ext ?_ (Prod.ext rfl ?_)
        · show (aremove next buf).filter _ = buf.filter _
          rw [aremove_eq_filter next hnd, List.filter_filter]
          exact List.filter_congr (fun p _ => flushCondEq hnextm p.1)
        · show (next, v) :: _ = _
          rw [hvnext, show m - next = (m - (next + 1)) + 1 by omega,
            List.range'_succ, List.map_cons]
    -- end

theorem DrainInv.permK {α : Type} {f : Nat → α} {K K' : List Nat}
    {st : DrainState α} {out : List (Nat × α)} (hp : K.Perm K')
    (h : DrainInv f K st out) : DrainInv f K' st out where
  kNodup := hp.nodup h.kNodup
  below := fun i hi => hp.mem_iff.mp (h.below i hi)
  notMem := fun hc => h.notMem (hp.mem_iff.mpr hc)
  outEq := h.outEq
  bufKeys := h.bufKeys
  bufVals := h.bufVals
  bufPerm := h.bufPerm.trans ((hp.filter _).map _)

theorem drainInv_empty {α : Type} (f : Nat → α) :
    DrainInv f [] (⟨[], 0⟩ : DrainState α) [] where
  kNodup := List.nodup_nil
  below := fun i hi => absurd hi (Nat.not_lt_zero i)
  notMem := fun hc => absurd hc (List.not_mem_nil 0)
  outEq := by simp
  bufKeys := List.nodup_nil
  bufVals := fun p hp => absurd hp (List.not_mem_nil p)
  bufPerm := by simp

/-- One queue arrival preserves the drainer invariant: the arriving
sequence number joins the received set, the cursor advances to the new
least missing number, and everything below it has been sent in order. -/
theorem drainStep_inv {α : Type} (f : Nat → α) {K : List Nat} {st : DrainState α}
    {out : List (Nat × α)} (h : DrainInv f K st out) (k : Nat) (hk : k ∉ K) :
    DrainInv f (k :: K) (drainStep st (k, f k)).1 (out ++ (drainStep st (k, f k)).2) := by
  have hnext_le : st.next_to_send ≤ k := by
    by_contra hc
    push_neg at hc
    exact hk (h.below k hc)
  have hkeysPerm : (akeys st.buffered).Perm
      (K.filter (fun x => decide (st.next_to_send ≤ x))) := by
    have hb := h.bufPerm.map Prod.fst
    rwa [show List.map Prod.fst
        ((K.filter (fun x => decide (st.next_to_send ≤ x))).map (fun x => (x, f x)))
      = K.filter (fun x => decide (st.next_to_send ≤ x))
      from akeys_map_key f _] at hb
  have hbk : k ∉ akeys st.buffered := by
    intro hc
    exact hk (List.mem_of_mem_filter (hkeysPerm.mem_iff.mp hc))
  have hset : aset k (f k) st.buffered = st.buffered ++ [(k, f k)] :=
    aset_of_not_mem _ hbk
  have hnd1 : (akeys (st.buffered ++ [(k, f k)])).Nodup := by
    rw [akeys_append, akeys_cons, akeys_nil, List.nodup_append]
    exact ⟨h.bufKeys, List.nodup_singleton k, by simpa using hbk⟩
  have hv1 : ∀ p ∈ st.buffered ++ [(k, f k)], p.2 = f p.1 := by
    intro p hp
    rcases List.mem_append.mp hp with hp | hp
    · exact h.bufVals p hp
    · rw [List.mem_singleton.mp hp]
  obtain ⟨m, hm1, hm2, hm3, hm4⟩ := drainFlushAux_spec f
    (st.buffered ++ [(k, f k)]).length (st.buffered ++ [(k, f k)])
    st.next_to_send (le_refl _) hnd1 hv1
  have hds : drainStep st (k, f k)
      = (⟨(st.buffered ++ [(k, f k)]).filter
            (fun p => decide (p.1 < st.next_to_send) || decide (m ≤ p.1)), m⟩,
         (List.range' st.next_to_send (m - st.next_to_send)).map (fun i => (i, f i))) := by
    rw [drainStep]
    simp only [drainFlush, hset, hm4]
  have hbuf' : (drainStep st (k, f k)).1.buffered
      = (st.buffered ++ [(k, f k)]).filter
          (fun p => decide (p.1 < st.next_to_send) || decide (m ≤ p.1)) := by
    rw [hds]
  have hnext' : (drainStep st (k, f k)).1.next_to_send = m := by rw [hds]
  have hout' : (drainStep st (k, f k)).2
      = (List.range' st.next_to_send (m - st.next_to_send)).map (fun i => (i, f i)) := by
    rw [hds]
  have hkbuf1 : akeys (st.buffered ++ [(k, f k)]) = akeys st.buffered ++ [k] := by
    rw [akeys_append, akeys_cons, akeys_nil]
  refine ⟨List.nodup_cons.mpr ⟨hk, h.kNodup⟩, ?_, ?_, ?_, ?_, ?_, ?_⟩
  · -- below
    intro i hi
    rw [hnext'] at hi
    by_cases hlt : i < st.next_to_send
    · exact List.mem_cons_of_mem k (h.below i hlt)
    · have hmem := hm2 i (Nat.le_of_not_lt hlt) hi
      rw [hkbuf1] at hmem
      rcases List.mem_append.mp hmem with hmem | hmem
      · exact List.mem_cons_of_mem k
          (List.mem_of_mem_filter (hkeysPerm.mem_iff.mp hmem))
      · exact List.mem_singleton.mp hmem ▸ List.mem_cons_self k K
  · -- notMem
    rw [hnext']
    intro hc
    rcases List.mem_cons.mp hc with hc | hc
    · apply hm3
      rw [hkbuf1, hc]
      exact List.mem_append_right _ (List.mem_singleton_self k)
    · apply hm3
      rw [hkbuf1]
      apply List.mem_append_left
      apply hkeysPerm.mem_iff.mpr
      exact List.mem_filter.mpr ⟨hc, by simpa using hm1⟩
  · -- outEq
    have hranges : List.range st.next_to_send
        ++ List.range' st.next_to_send (m - st.next_to_send) = List.range m := by
      rw [List.range_eq_range', List.range_eq_range']
      have := List.range'_append_1 0 st.next_to_send (m - st.next_to_send)
      rw [Nat.zero_add] at this
      rw [this, show m - st.next_to_send + st.next_to_send = m by omega]
    rw [hout', hnext', h.outEq, ← List.map_append, hranges]
  · -- bufKeys
    rw [hbuf']
    exact hnd1.sublist ((List.filter_sublist _).map Prod.fst)
  · -- bufVals
    rw [hbuf']
    exact fun p hp => hv1 p (List.mem_of_mem_filter hp)
  · -- bufPerm
    rw [hbuf', hnext']
    have hstep1 : (st.buffered ++ [(k, f k)]).Perm ((k, f k) :: st.buffered) := by
      have hp := @List.perm_middle (Nat × α) (k, f k) st.buffered []
      rwa [List.append_nil] at hp
    have hstep2 : ((k, f k) :: st.buffered).Perm
        (((k :: K).filter (fun x => decide (st.next_to_send ≤ x))).map
          (fun x => (x, f x))) := by
      rw [List.filter_cons_of_pos (by simpa using hnext_le), List.map_cons]
      exact h.bufPerm.cons (k, f k)
    have hstep3 := (hstep1.trans hstep2).filter
      (fun p => decide (p.1 < st.next_to_send) || decide (m ≤ p.1))
    rw [List.filter_map, List.filter_filter] at hstep3
    refine hstep3.trans (List.Perm.of_eq ?_)
    congr 1
    exact List.filter_congr (fun x _ => flushCondEq2 hm1 x)

/-- Feeding any set of distinct, previously-unseen sequence numbers to the
drainer preserves the invariant. -/
theorem drainRun_inv {α : Type} (f : Nat → α) :
    ∀ (ks : List Nat) {K : List Nat} {st : DrainState α} {out : List (Nat × α)},
      DrainInv f K st out → ks.Nodup → (∀ x ∈ ks, x ∉ K) →
      DrainInv f (ks ++ K) (drainRun st (ks.map fun k => (k, f k))).1
        (out ++ (drainRun st (ks.map fun k => (k, f k))).2) := by
  intro ks
  induction ks with
  | nil =>
    intro K st out h _ _
    simpa [drainRun] using h
  | cons k rest ih =>
    intro K st out h hnd hnew
    rw [List.nodup_cons] at hnd
    have h1 := drainStep_inv f h k (hnew k (List.mem_cons_self k rest))
    have h2 := ih h1 hnd.2 (fun x hx => by
      intro hc
      rcases List.mem_cons.mp hc with hc | hc
      · exact hnd.1 (hc ▸ hx)
      · exact hnew x (List.mem_cons_of_mem k hx) hc)
    have hgoal : drainRun st ((k, f k) :: rest.map fun x => (x, f x))
        = ((drainRun (drainStep st (k, f k)).1 (rest.map fun x => (x, f x))).1,
           (drainStep st (k, f k)).2
             ++ (drainRun (drainStep st (k, f k)).1 (rest.map fun x => (x, f x))).2) := rfl
    rw [List.map_cons, hgoal]
    exact DrainInv.permK List.perm_middle (by rwa [List.append_assoc] at h2)

/-- For a complete permutation of `0, …, n-1`, the drainer emits exactly
the payloads `0, …, n-1`, each under its own sequence number, in strictly
increasing order — whatever the arrival (completion) order was. -/
theorem drainRun_range {α : Type} (f : Nat → α) (n : Nat) (ks : List Nat)
    (hperm : ks.Perm (List.range n)) :
    (drainRun (⟨[], 0⟩ : DrainState α) (ks.map fun k => (k, f k))).2
      = (List.range n).map fun i => (i, f i) := by
  have hnd : ks.Nodup := hperm.symm.nodup (List.nodup_range n)
  have hinv := drainRun_inv f ks (drainInv_empty f) hnd
    (fun x _ hc => absurd hc (List.not_mem_nil x))
  rw [List.append_nil] at hinv
  set st' := (drainRun (⟨[], 0⟩ : DrainState α) (ks.map fun k => (k, f k))).1 with hst'
  have hn : st'.next_to_send = n := by
    have hnotmem := hinv.notMem
    have hge : n ≤ st'.next_to_send := by
      by_contra hc
      push_neg at hc
      exact hnotmem (hperm.mem_iff.mpr (List.mem_range.mpr hc))
    have hle : st'.next_to_send ≤ n := by
      by_contra hc
      push_neg at hc
      have := hinv.below n hc
      exact absurd (List.mem_range.mp (hperm.mem_iff.mp this)) (lt_irrefl n)
    omega
  have hout := hinv.outEq
  rw [hn] at hout
  have hout2 : ([] : List (Nat × α)) ++ (drainRun (⟨[], 0⟩ : DrainState α)
      (ks.map fun k => (k, f k))).2
      = (drainRun (⟨[], 0⟩ : DrainState α) (ks.map fun k => (k, f k))).2 :=
    List.nil_append _
  rw [← hout2, hout]

/-! ## C1: ordered delivery -/

/-- C1: sequence numbers are assigned at submission time by the
monotonically increasing `_sequence_counter` (the `i`-th submitted fragment
of a turn gets number `counter₀ + i`, independent of synthesis), and for
every completion order that is a permutation of the submitted numbers
`0, …, n-1`, the drainer sends the payloads in strictly increasing
sequence order `0, 1, …, n-1`, each payload under its assigned number. -/
theorem C1_ordered_delivery :
    (∀ (st : TTSSubmitState) (frags : List Fragment),
      (speakAll st frags).sequence_counter = st.sequence_counter + frags.length ∧
      (speakAll st frags).submitted
        = st.submitted ++ List.enumFrom st.sequence_counter frags) ∧
    (∀ (f : Nat → AudioPayload) (n : Nat) (ks : List Nat),
      ks.Perm (List.range n) →
      (drainRun (⟨[], 0⟩ : DrainState AudioPayload) (ks.map fun k => (k, f k))).2
        = (List.range n).map fun i => (i, f i)) := by
  constructor
  · intro st frags
    induction frags generalizing st with
    | nil => simp [speakAll]
    | cons fr rest ih =>
      have hstep : speakAll st (fr :: rest) = speakAll (speak st fr) rest := rfl
      obtain ⟨ih1, ih2⟩ := ih (speak st fr)
      rw [hstep]
      constructor
      · rw [ih1, speak]
        simp only [List.length_cons]
        omega
      · rw [ih2, speak]
        simp only [List.enumFrom_cons, List.append_assoc, List.cons_append,
          List.nil_append]
  · exact fun f n ks h => drainRun_range f n ks h

/-- Witness for `C1_ordered_delivery`: three fragments submitted from a
fresh manager get numbers `0, 1, 2`, and the completion order `2, 0, 1`
is still delivered as `0, 1, 2`. -/
theorem C1_ordered_delivery_witness :
    ((speakAll ⟨0, []⟩
        [⟨"one", ⟨"one", "ai"⟩, none⟩, ⟨"two", ⟨"two", "ai"⟩, none⟩,
         ⟨"three", ⟨"three", "ai"⟩, none⟩]).submitted
      = [] ++ List.enumFrom 0
          [⟨"one", ⟨"one", "ai"⟩, none⟩, ⟨"two", ⟨"two", "ai"⟩, none⟩,
           ⟨"three", ⟨"three", "ai"⟩, none⟩]) ∧
    ([2, 0, 1].Perm (List.range 3) ∧
      (drainRun (⟨[], 0⟩ : DrainState AudioPayload)
          ([2, 0, 1].map fun k => (k, ⟨none, ⟨toString k, "ai"⟩, none⟩))).2
        = (List.range 3).map fun i => (i, ⟨none, ⟨toString i, "ai"⟩, none⟩)) :=
  ⟨(C1_ordered_delivery.1 ⟨0, []⟩ _).2,
   by decide,
   C1_ordered_delivery.2 (fun k => ⟨none, ⟨toString k, "ai"⟩, none⟩) 3 [2, 0, 1]
     (by decide)⟩

/-! ## C3: every fragment yields exactly one payload under its number -/

/-- C3: an empty/whitespace-punctuation-only fragment immediately yields
the silent payload (no audio, display text and actions retained); a
fragment whose synthesis raises yields the same silent shape under its own
sequence number; `speak` consumes a sequence number for every fragment,
empty ones included; and for any completion order of a turn's fragments,
the drainer delivers exactly one payload per fragment at the position of
its sequence number — so a silent payload for fragment `i` never blocks
delivery of fragment `i+1`. -/
theorem C3_silent_payloads :
    (∀ (synth : String → Except String String) (fr : Fragment),
      isEmptyFragment fr.tts_text = true →
      fragmentPayload synth fr = ⟨none, fr.display_text, fr.actions⟩) ∧
    (∀ (synth : String → Except String String) (fr : Fragment) (e : String),
      isEmptyFragment fr.tts_text = false → synth fr.tts_text = Except.error e →
      fragmentPayload synth fr = ⟨none, fr.display_text, fr.actions⟩) ∧
    (∀ (st : TTSSubmitState) (fr : Fragment),
      (speak st fr).sequence_counter = st.sequence_counter + 1 ∧
      (st.sequence_counter, fr) ∈ (speak st fr).submitted) ∧
    (∀ (synth : String → Except String String) (frags : List Fragment)
        (ks : List Nat),
      ks.Perm (List.range frags.length) →
      (drainRun (⟨[], 0⟩ : DrainState AudioPayload)
          (ks.map fun k =>
            (k, fragmentPayload synth (frags.getD k ⟨"", ⟨"", ""⟩, none⟩)))).2
        = (List.range frags.length).map fun i =>
            (i, fragmentPayload synth (frags.getD i ⟨"", ⟨"", ""⟩, none⟩))) := by
  refine ⟨?_, ?_, ?_, ?_⟩
  · intro synth fr he
    rw [fragmentPayload, if_pos he, prepare_audio_payload]
  · intro synth fr e he hs
    rw [fragmentPayload, if_neg (by simp [he]), hs, prepare_audio_payload]
  · intro st fr
    exact ⟨rfl, by simp [speak]⟩
  · intro synth frags ks hperm
    exact drainRun_range
      (fun k => fragmentPayload synth (frags.getD k ⟨"", ⟨"", ""⟩, none⟩))
      frags.length ks hperm

/-- Witness for `C3_silent_payloads`: a whitespace-punctuation fragment, a
failing synthesis, a `speak` call, and a three-fragment turn (second
fragment fails, first is empty) delivered from completion order `2, 0, 1`. -/
theorem C3_silent_payloads_witness :
    (fragmentPayload (fun t => Except.ok t) ⟨" .,!", ⟨"hi", "ai"⟩, none⟩
      = ⟨none, ⟨"hi", "ai"⟩, none⟩) ∧
    (fragmentPayload (fun _ => Except.error "tts down") ⟨"hello", ⟨"hello", "ai"⟩, none⟩
      = ⟨none, ⟨"hello", "ai"⟩, none⟩) ∧
    ((speak ⟨0, []⟩ ⟨" ", ⟨"", "ai"⟩, none⟩).sequence_counter = 0 + 1 ∧
      (0, (⟨" ", ⟨"", "ai"⟩, none⟩ : Fragment))
        ∈ (speak ⟨0, []⟩ ⟨" ", ⟨"", "ai"⟩, none⟩).submitted) ∧
    ((drainRun (⟨[], 0⟩ : DrainState AudioPayload)
        ([2, 0, 1].map fun k =>
          (k, fragmentPayload (fun t => if t = "boom" then Except.error "x" else Except.ok t)
            ([⟨" ", ⟨"s1", "ai"⟩, none⟩, ⟨"boom", ⟨"s2", "ai"⟩, none⟩,
              ⟨"ok", ⟨"s3", "ai"⟩, none⟩].getD k ⟨"", ⟨"", ""⟩, none⟩)))).2
      = (List.range 3).map fun i =>
          (i, fragmentPayload (fun t => if t = "boom" then Except.error "x" else Except.ok t)
            ([⟨" ", ⟨"s1", "ai"⟩, none⟩, ⟨"boom", ⟨"s2", "ai"⟩, none⟩,
              ⟨"ok", ⟨"s3", "ai"⟩, none⟩].getD i ⟨"", ⟨"", ""⟩, none⟩))) :=
  ⟨C3_silent_payloads.1 (fun t => Except.ok t) ⟨" .,!", ⟨"hi", "ai"⟩, none⟩ (by decide),
   C3_silent_payloads.2.1 (fun _ => Except.error "tts down")
     ⟨"hello", ⟨"hello", "ai"⟩, none⟩ "tts down" (by decide) rfl,
   C3_silent_payloads.2.2.1 ⟨0, []⟩ ⟨" ", ⟨"", "ai"⟩, none⟩,
   C3_silent_payloads.2.2.2 (fun t => if t = "boom" then Except.error "x" else Except.ok t)
     [⟨" ", ⟨"s1", "ai"⟩, none⟩, ⟨"boom", ⟨"s2", "ai"⟩, none⟩,
      ⟨"ok", ⟨"s3", "ai"⟩, none⟩] [2, 0, 1] (by decide)⟩

/-! ## VAD state-machine lemmas (C7) -/

theorem process_preserves (sm : StateMachine) (p d : ℚ) (c : Nat) :
    (sm.process p d c).1.prob_threshold = sm.prob_threshold ∧
    (sm.process p d c).1.db_threshold = sm.db_threshold ∧
    (sm.process p d c).1.required_hits = sm.required_hits ∧
    (sm.process p d c).1.required_misses = sm.required_misses ∧
    (sm.process p d c).1.smoothing_window = sm.smoothing_window := by
  cases hs : sm.state <;>
    simp only [StateMachine.process, StateMachine.get_smoothed_values,
      StateMachine.update, hs] <;>
    split_ifs <;> simp

theorem process_idle_hit (sm : StateMachine) (f : ℚ × ℚ × Nat)
    (hs : sm.state = VadState.IDLE) (hf : hitFrame sm f)
    (hlt : sm.hit_count + 1 < sm.required_hits) :
    (sm.process f.1 f.2.1 f.2.2).1.state = VadState.IDLE ∧
    (sm.process f.1 f.2.1 f.2.2).1.hit_count = sm.hit_count + 1 := by
  simp only [hitFrame, StateMachine.get_smoothed_values] at hf
  simp only [StateMachine.process, StateMachine.get_smoothed_values, hs]
  rw [if_pos hf, if_neg (Nat.not_le.mpr hlt)]
  exact ⟨rfl, rfl⟩

theorem process_idle_hit_fire (sm : StateMachine) (f : ℚ × ℚ × Nat)
    (hs : sm.state = VadState.IDLE) (hf : hitFrame sm f)
    (hge : sm.required_hits ≤ sm.hit_count + 1) :
    (sm.process f.1 f.2.1 f.2.2).1.state = VadState.ACTIVE := by
  simp only [hitFrame, StateMachine.get_smoothed_values] at hf
  simp only [StateMachine.process, StateMachine.get_smoothed_values,
    StateMachine.update, hs]
  rw [if_pos hf, if_pos hge]

theorem process_idle_miss (sm : StateMachine) (f : ℚ × ℚ × Nat)
    (hs : sm.state = VadState.IDLE) (hm : missFrame sm f) :
    (sm.process f.1 f.2.1 f.2.2).1.state = VadState.IDLE ∧
    (sm.process f.1 f.2.1 f.2.2).1.hit_count = 0 := by
  simp only [missFrame, StateMachine.get_smoothed_values] at hm
  simp only [StateMachine.process, StateMachine.get_smoothed_values, hs]
  rw [if_neg hm]
  exact ⟨rfl, rfl⟩

theorem process_active_hit (sm : StateMachine) (f : ℚ × ℚ × Nat)
    (hs : sm.state = VadState.ACTIVE) (hf : hitFrame sm f) :
    (sm.process f.1 f.2.1 f.2.2).1.state = VadState.ACTIVE ∧
    (sm.process f.1 f.2.1 f.2.2).1.miss_count = 0 := by
  simp only [hitFrame, StateMachine.get_smoothed_values] at hf
  simp only [StateMachine.process, StateMachine.get_smoothed_values,
    StateMachine.update, hs]
  rw [if_pos hf]
  exact ⟨rfl, rfl⟩

theorem process_active_miss (sm : StateMachine) (f : ℚ × ℚ × Nat)
    (hs : sm.state = VadState.ACTIVE) (hm : missFrame sm f)
    (hlt : sm.miss_count + 1 < sm.required_misses) :
    (sm.process f.1 f.2.1 f.2.2).1.state = VadState.ACTIVE ∧
    (sm.process f.1 f.2.1 f.2.2).1.miss_count = sm.miss_count + 1 := by
  simp only [missFrame, StateMachine.get_smoothed_values] at hm
  simp only [StateMachine.process, StateMachine.get_smoothed_values,
    StateMachine.update, hs]
  rw [if_neg hm, if_neg (Nat.not_le.mpr hlt)]
  exact ⟨rfl, rfl⟩

theorem run_append_vad :
    ∀ (l1 l2 : List (ℚ × ℚ × Nat)) (sm : StateMachine),
      (StateMachine.run sm (l1 ++ l2)).1
        = (StateMachine.run (StateMachine.run sm l1).1 l2).1 := by
  intro l1
  induction l1 with
  | nil => intro l2 sm; rfl
  | cons f rest ih => intro l2 sm; exact ih l2 (sm.process f.1 f.2.1 f.2.2).1

theorem hitStreak_take :
    ∀ (trace : List (ℚ × ℚ × Nat)) (i : Nat) (sm : StateMachine),
      hitStreak sm trace = true → hitStreak sm (trace.take i) = true := by
  intro trace
  induction trace with
  | nil => intro i sm h; simpa [List.take_nil] using h
  | cons f rest ih =>
    intro i sm h
    cases i with
    | zero => rfl
    | succ i =>
      rw [hitStreak, Bool.and_eq_true] at h
      rw [List.take_succ_cons, hitStreak, Bool.and_eq_true]
      exact ⟨h.1, ih i _ h.2⟩

theorem hitStreak_last :
    ∀ (l : List (ℚ × ℚ × Nat)) (x : ℚ × ℚ × Nat) (sm : StateMachine),
      hitStreak sm (l ++ [x]) = true → hitFrame (StateMachine.run sm l).1 x := by
  intro l
  induction l with
  | nil =>
    intro x sm h
    rw [List.nil_append, hitStreak, Bool.and_eq_true, decide_eq_true_eq] at h
    exact h.1
  | cons f rest ih =>
    intro x sm h
    rw [List.cons_append, hitStreak, Bool.and_eq_true] at h
    exact ih x (sm.process f.1 f.2.1 f.2.2).1 h.2

/-- While the hit counter stays below `required_hits`, an all-hit trace
keeps the machine in IDLE and increments the counter once per frame. -/
theorem run_idle_hitStreak :
    ∀ (trace : List (ℚ × ℚ × Nat)) (sm : StateMachine),
      sm.state = VadState.IDLE → hitStreak sm trace = true →
      sm.hit_count + trace.length < sm.required_hits →
      (StateMachine.run sm trace).1.state = VadState.IDLE ∧
      (StateMachine.run sm trace).1.hit_count = sm.hit_count + trace.length ∧
      (StateMachine.run sm trace).1.required_hits = sm.required_hits := by
  intro trace
  induction trace with
  | nil =>
    intro sm hs _ _
    exact ⟨hs, by simp [StateMachine.run], rfl⟩
  | cons f rest ih =>
    intro sm hs hstreak hlt
    rw [hitStreak, Bool.and_eq_true, decide_eq_true_eq] at hstreak
    rw [List.length_cons] at hlt
    have hstep := process_idle_hit sm f hs hstreak.1 (by omega)
    have hcfg := process_preserves sm f.1 f.2.1 f.2.2
    obtain ⟨ih1, ih2, ih3⟩ := ih (sm.process f.1 f.2.1 f.2.2).1 hstep.1 hstreak.2
      (by rw [hstep.2, hcfg.2.2.1]; omega)
    refine ⟨ih1, ?_, ?_⟩
    · show (StateMachine.run (sm.process f.1 f.2.1 f.2.2).1 rest).1.hit_count = _
      rw [ih2, hstep.2, List.length_cons]
      omega
    · show (StateMachine.run (sm.process f.1 f.2.1 f.2.2).1 rest).1.required_hits = _
      rw [ih3, hcfg.2.2.1]

theorem missStreak_cons {sm : StateMachine} {f : ℚ × ℚ × Nat}
    {rest : List (ℚ × ℚ × Nat)} (h : missStreak sm (f :: rest) = true) :
    missFrame sm f ∧ missStreak (sm.process f.1 f.2.1 f.2.2).1 rest = true := by
  rw [missStreak, Bool.and_eq_true, decide_eq_true_eq] at h
  exact h

/-- While the miss counter stays below `required_misses`, an all-miss trace
keeps the machine ACTIVE and increments the counter once per frame. -/
theorem run_active_missStreak :
    ∀ (trace : List (ℚ × ℚ × Nat)) (sm : StateMachine),
      sm.state = VadState.ACTIVE → missStreak sm trace = true →
      sm.miss_count + trace.length < sm.required_misses →
      (StateMachine.run sm trace).1.state = VadState.ACTIVE ∧
      (StateMachine.run sm trace).1.miss_count = sm.miss_count + trace.length := by
  intro trace
  induction trace with
  | nil =>
    intro sm hs _ _
    exact ⟨hs, by simp [StateMachine.run]⟩
  | cons f rest ih =>
    intro sm hs hstreak hlt
    obtain ⟨hm, hstreak2⟩ := missStreak_cons hstreak
    rw [List.length_cons] at hlt
    have hstep := process_active_miss sm f hs hm (by omega)
    have hcfg := process_preserves sm f.1 f.2.1 f.2.2
    obtain ⟨ih1, ih2⟩ := ih (sm.process f.1 f.2.1 f.2.2).1 hstep.1 hstreak2
      (by rw [hstep.2, hcfg.2.2.2.1]; omega)
    refine ⟨ih1, ?_⟩
    show (StateMachine.run (sm.process f.1 f.2.1 f.2.2).1 rest).1.miss_count = _
    rw [ih2, hstep.2, List.length_cons]
    omega

/-! ## C7: VAD transition timing -/

/-- C7: from IDLE with a fresh hit counter, a trace of exactly
`required_hits` consecutive frames whose smoothed probability and loudness
both meet their thresholds reaches ACTIVE exactly on its last frame and on
no earlier frame; a sub-threshold frame in IDLE resets the hit counter;
from ACTIVE with a fresh miss counter, any all-miss trace shorter than
`required_misses` (in particular of length `required_misses - 1`) leaves
the machine ACTIVE; and a hit frame in ACTIVE resets the miss counter. -/
theorem C7_vad_transitions :
    (∀ (sm : StateMachine) (trace : List (ℚ × ℚ × Nat)),
      sm.state = VadState.IDLE → sm.hit_count = 0 → 0 < sm.required_hits →
      trace.length = sm.required_hits → hitStreak sm trace = true →
      (∀ i, i < trace.length →
        (StateMachine.run sm (trace.take i)).1.state = VadState.IDLE) ∧
      (StateMachine.run sm trace).1.state = VadState.ACTIVE) ∧
    (∀ (sm : StateMachine) (f : ℚ × ℚ × Nat),
      sm.state = VadState.IDLE → missFrame sm f →
      (sm.process f.1 f.2.1 f.2.2).1.state = VadState.IDLE ∧
      (sm.process f.1 f.2.1 f.2.2).1.hit_count = 0) ∧
    (∀ (sm : StateMachine) (trace : List (ℚ × ℚ × Nat)),
      sm.state = VadState.ACTIVE → sm.miss_count = 0 →
      trace.length < sm.required_misses → missStreak sm trace = true →
      (StateMachine.run sm trace).1.state = VadState.ACTIVE) ∧
    (∀ (sm : StateMachine) (f : ℚ × ℚ × Nat),
      sm.state = VadState.ACTIVE → hitFrame sm f →
      (sm.process f.1 f.2.1 f.2.2).1.state = VadState.ACTIVE ∧
      (sm.process f.1 f.2.1 f.2.2).1.miss_count = 0) := by
  refine ⟨?_, ?_, ?_, ?_⟩
  · intro sm trace hs hh hpos hlen hstreak
    constructor
    · intro i hi
      have hstreak' := hitStreak_take trace i sm hstreak
      have hlen' : (trace.take i).length = i := by
        rw [List.length_take]
        omega
      exact (run_idle_hitStreak (trace.take i) sm hs hstreak'
        (by rw [hlen', hh]; omega)).1
    · have hne : trace ≠ [] := by
        intro hc
        rw [hc] at hlen
        simp at hlen
        omega
      have hlx : trace = trace.dropLast ++ [trace.getLast hne] :=
        (List.dropLast_append_getLast hne).symm
      have hlast := hitStreak_last trace.dropLast (trace.getLast hne) sm
        (by rw [← hlx]; exact hstreak)
      have hstreakl : hitStreak sm trace.dropLast = true := by
        have h1 := hitStreak_take trace trace.dropLast.length sm hstreak
        rw [show trace.take trace.dropLast.length = trace.dropLast from by
          rw [List.length_dropLast, ← List.dropLast_eq_take]] at h1
        exact h1
      have hlenl : trace.dropLast.length + 1 = sm.required_hits := by
        have hpos' : 0 < trace.length := List.length_pos.mpr hne
        rw [List.length_dropLast]
        omega
      have hrun := run_idle_hitStreak trace.dropLast sm hs hstreakl (by omega)
      have hfire := process_idle_hit_fire (StateMachine.run sm trace.dropLast).1
        (trace.getLast hne) hrun.1 hlast
        (by rw [hrun.2.2, hrun.2.1, hh]; omega)
      rw [hlx, run_append_vad]
      exact hfire
  · intro sm f hs hm
    exact process_idle_miss sm f hs hm
  · intro sm trace hs hmc hlen hstreak
    exact (run_active_missStreak trace sm hs hstreak (by omega)).1
  · intro sm f hs hf
    exact process_active_hit sm f hs hf

/-- Witness for `C7_vad_transitions`: thresholds `1/2` and `0`,
`required_hits = 2`, `required_misses = 2`, smoothing window `1`; two hit
frames fire IDLE→ACTIVE on the second frame, one sub-threshold frame resets
the counter, one miss frame (`required_misses - 1`) keeps ACTIVE, and a hit
frame in ACTIVE clears the miss counter. -/
theorem C7_vad_transitions_witness :
    ((∀ i, i < ([((1 : ℚ), (1 : ℚ), 0), (1, 1, 1)] : List (ℚ × ℚ × Nat)).length →
      (StateMachine.run (StateMachine.init ⟨1/2, 0, 2, 2, 1⟩)
        (([((1 : ℚ), (1 : ℚ), 0), (1, 1, 1)] : List (ℚ × ℚ × Nat)).take i)).1.state
        = VadState.IDLE) ∧
     (StateMachine.run (StateMachine.init ⟨1/2, 0, 2, 2, 1⟩)
        [((1 : ℚ), (1 : ℚ), 0), (1, 1, 1)]).1.state = VadState.ACTIVE) ∧
    ((StateMachine.init ⟨1/2, 0, 2, 2, 1⟩).process 0 0 7).1.state = VadState.IDLE ∧
    ((StateMachine.init ⟨1/2, 0, 2, 2, 1⟩).process 0 0 7).1.hit_count = 0 ∧
    (StateMachine.run { StateMachine.init ⟨1/2, 0, 2, 2, 1⟩ with
        state := VadState.ACTIVE } [((0 : ℚ), (0 : ℚ), 5)]).1.state
      = VadState.ACTIVE ∧
    ({ StateMachine.init ⟨1/2, 0, 2, 2, 1⟩ with
        state := VadState.ACTIVE }.process 1 1 9).1.state = VadState.ACTIVE ∧
    ({ StateMachine.init ⟨1/2, 0, 2, 2, 1⟩ with
        state := VadState.ACTIVE }.process 1 1 9).1.miss_count = 0 := by
  have h1 := C7_vad_transitions.1 (StateMachine.init ⟨1/2, 0, 2, 2, 1⟩)
    [((1 : ℚ), (1 : ℚ), 0), (1, 1, 1)] rfl rfl (by decide) rfl
    (by norm_num [hitStreak, hitFrame, StateMachine.get_smoothed_values,
      StateMachine.process, StateMachine.init, pushCapped, listMean,
      StateMachine.update])
  have h2 := C7_vad_transitions.2.1 (StateMachine.init ⟨1/2, 0, 2, 2, 1⟩)
    ((0 : ℚ), (0 : ℚ), 7) rfl
    (by norm_num [missFrame, StateMachine.get_smoothed_values,
      StateMachine.init, pushCapped, listMean])
  have h3 := C7_vad_transitions.2.2.1
    { StateMachine.init ⟨1/2, 0, 2, 2, 1⟩ with state := VadState.ACTIVE }
    [((0 : ℚ), (0 : ℚ), 5)] rfl rfl (by decide)
    (by norm_num [missStreak, missFrame, StateMachine.get_smoothed_values,
      StateMachine.init, pushCapped, listMean])
  have h4 := C7_vad_transitions.2.2.2
    { StateMachine.init ⟨1/2, 0, 2, 2, 1⟩ with state := VadState.ACTIVE }
    ((1 : ℚ), (1 : ℚ), 9) rfl
    (by norm_num [hitFrame, StateMachine.get_smoothed_values,
      StateMachine.init, pushCapped, listMean])
  exact ⟨h1, h2.1, h2.2, h3, h4.1, h4.2⟩

/-! ## Registry well-formedness lemmas (C10) -/

theorem sadd_nodup {x : String} {s : List String} (h : s.Nodup) :
    (sadd x s).Nodup := by
  rw [sadd]
  by_cases hx : x ∈ s
  · rwa [if_pos hx]
  · rw [if_neg hx, List.nodup_append]
    exact ⟨h, List.nodup_singleton x, by simpa using hx⟩

theorem mem_sadd {x u : String} {s : List String} :
    u ∈ sadd x s ↔ u ∈ s ∨ u = x := by
  rw [sadd]
  by_cases hx : x ∈ s
  · rw [if_pos hx]
    constructor
    · exact Or.inl
    · rintro (h | h)
      · exact h
      · exact h ▸ hx
  · rw [if_neg hx, List.mem_append, List.mem_singleton]

theorem mem_serase {t u : String} {s : List String} :
    u ∈ serase t s ↔ u ∈ s ∧ u ≠ t := by
  rw [serase, List.mem_filter]
  simp

theorem serase_nodup {t : String} {s : List String} (h : s.Nodup) :
    (serase t s).Nodup := List.Nodup.filter _ h

theorem mkGroupId_ne (client_uid : String) : mkGroupId client_uid ≠ "" := by
  intro h
  have hlen : (mkGroupId client_uid).length = 0 := by rw [h]; rfl
  rw [mkGroupId, String.length_append] at hlen
  have : ("group_" : String).length = 6 := rfl
  omega

theorem mem_aremove_iff {κ α : Type} [DecidableEq κ] {k : κ} {p : κ × α}
    {l : List (κ × α)} (hnd : (akeys l).Nodup) :
    p ∈ aremove k l ↔ p ∈ l ∧ p.1 ≠ k := by
  rw [aremove_eq_filter k hnd, List.mem_filter]
  simp

theorem remove_client_WF {m : ChatGroupManager} (h : RegistryWF m) (c : String) :
    RegistryWF (remove_client m c).1 := by
  cases hc : alookup c m.client_group_map with
  | none =>
    simp only [remove_client, hc]
    exact h
  | some gid =>
    by_cases hgid : gid = ""
    · simp only [remove_client, hc, if_pos hgid]
      exact h
    · cases hg : alookup gid m.groups with
      | none =>
        simp only [remove_client, hc, if_neg hgid, hg]
        exact h
      | some g =>
        have hmem_char : ∀ u, u ∈ (if c ∈ g.members then serase c g.members
            else g.members) → u ∈ g.members ∧ u ≠ c := by
          intro u hu
          by_cases hcm : c ∈ g.members
          · rw [if_pos hcm] at hu
            exact mem_serase.mp hu
          · rw [if_neg hcm] at hu
            exact ⟨hu, fun he => hcm (he ▸ hu)⟩
        have hmem_nodup : (if c ∈ g.members then serase c g.members
            else g.members).Nodup := by
          have hn := h.members_nodup (gid, g) (mem_of_alookup hg)
          by_cases hcm : c ∈ g.members
          · rw [if_pos hcm]
            exact serase_nodup hn
          · rw [if_neg hcm]
            exact hn
        have wf_del : RegistryWF
            ⟨aremove c m.client_group_map, aremove gid m.groups⟩ := by
          refine ⟨akeys_aremove_nodup _ h.map_nodup,
            akeys_aremove_nodup _ h.groups_nodup, ?_, ?_, ?_⟩
          · intro p hp
            exact h.gid_ne p (mem_aremove_of_mem hp)
          · intro p hp
            exact h.members_nodup p (mem_aremove_of_mem hp)
          · intro p hp u hu
            obtain ⟨hpm, hpne⟩ := (mem_aremove_iff h.groups_nodup).mp hp
            have hune : u ≠ c := by
              intro he
              have hum := h.members_mapped p hpm u hu
              rw [he, hc] at hum
              exact hpne (Option.some.inj hum).symm
            rw [alookup_aremove_ne _ hune]
            exact h.members_mapped p hpm u hu
        have wf_set : ∀ g' : ChatGroup, g'.members.Nodup →
            (∀ u ∈ g'.members, u ∈ g.members ∧ u ≠ c) →
            RegistryWF ⟨aremove c m.client_group_map, aset gid g' m.groups⟩ := by
          intro g' hnd' hsub
          refine ⟨akeys_aremove_nodup _ h.map_nodup,
            akeys_aset_nodup _ _ h.groups_nodup, ?_, ?_, ?_⟩
          · intro p hp
            rcases (mem_aset_iff h.groups_nodup).mp hp with hp | hp
            · rw [hp]
              exact hgid
            · exact h.gid_ne p hp.1
          · intro p hp
            rcases (mem_aset_iff h.groups_nodup).mp hp with hp | hp
            · rw [hp]
              exact hnd'
            · exact h.members_nodup p hp.1
          · intro p hp u hu
            rcases (mem_aset_iff h.groups_nodup).mp hp with hp | hp
            · rw [hp] at hu ⊢
              obtain ⟨hug, hune⟩ := hsub u hu
              rw [alookup_aremove_ne _ hune]
              exact h.members_mapped (gid, g) (mem_of_alookup hg) u hug
            · obtain ⟨hpm, hpne⟩ := hp
              have hune : u ≠ c := by
                intro he
                have hum := h.members_mapped p hpm u hu
                rw [he, hc] at hum
                exact hpne (Option.some.inj hum).symm
              rw [alookup_aremove_ne _ hune]
              exact h.members_mapped p hpm u hu
        simp only [remove_client, hc, if_neg hgid, hg]
        by_cases howner : g.owner_uid = c
        · rw [if_pos howner]
          cases hm1 : (if c ∈ g.members then serase c g.members else g.members) with
          | nil => exact wf_del
          | cons o rest =>
            refine wf_set ⟨g.group_id, o, o :: rest⟩ ?_ ?_
            · rw [← hm1]
              exact hmem_nodup
            · intro u hu
              exact hmem_char u (hm1 ▸ hu)
        · rw [if_neg howner]
          by_cases hzero : (if c ∈ g.members then serase c g.members
              else g.members).length = 0
          · rw [if_pos hzero]
            exact wf_del
          · rw [if_neg hzero]
            exact wf_set _ hmem_nodup hmem_char

theorem register_client_WF {m : ChatGroupManager} (h : RegistryWF m)
    (c : String) (hfresh : truthyOpt (alookup c m.client_group_map) = false) :
    RegistryWF (register_client m c) := by
  refine ⟨akeys_aset_nodup _ _ h.map_nodup, h.groups_nodup, h.gid_ne,
    h.members_nodup, ?_⟩
  intro p hp u hu
  have hune : u ≠ c := by
    intro he
    have hum := h.members_mapped p hp u hu
    rw [he] at hum
    rw [hum] at hfresh
    have hempty : p.1 = "" := by
      by_contra hne
      simp [truthyOpt, hne] at hfresh
    exact h.gid_ne p hp hempty
  rw [register_client]
  rw [show (⟨aset c "" m.client_group_map, m.groups⟩ : ChatGroupManager).client_group_map
    = aset c "" m.client_group_map from rfl]
  rw [alookup_aset_ne _ _ hune]
  exact h.members_mapped p hp u hu

theorem cleanup_WF {m : ChatGroupManager} (h : RegistryWF m)
    (connected : List String) :
    RegistryWF (cleanup_disconnected_clients m connected) := by
  have hfold : ∀ (l : List String) (m0 : ChatGroupManager), RegistryWF m0 →
      RegistryWF (l.foldl (fun acc c => (remove_client acc c).1) m0) := by
    intro l
    induction l with
    | nil => intro m0 hm; exact hm
    | cons c rest ih => intro m0 hm; exact ih _ (remove_client_WF hm c)
  exact hfold _ m h

theorem remove_client_from_group_WF {m m' : ChatGroupManager} {r t : String}
    {ok : Bool} {msg : String} (h : RegistryWF m)
    (heq : remove_client_from_group m r t = some (m', ok, msg)) :
    RegistryWF m' := by
  cases hc : alookup t m.client_group_map with
  | none =>
    rw [remove_client_from_group, hc,
      if_pos (by simp [truthyOpt] : ¬ truthyOpt (none : Option String) = true)] at heq
    simp only [Option.some.injEq, Prod.mk.injEq] at heq
    obtain ⟨h1, -, -⟩ := heq
    exact h1 ▸ h
  | some gid =>
    by_cases hgid : gid = ""
    · rw [remove_client_from_group, hc,
        if_pos (by simp [truthyOpt, hgid] : ¬ truthyOpt (some gid) = true)] at heq
      simp only [Option.some.injEq, Prod.mk.injEq] at heq
      obtain ⟨h1, -, -⟩ := heq
      exact h1 ▸ h
    · rw [remove_client_from_group, hc,
        if_neg (not_not_intro (show truthyOpt (some gid) = true by
          simp [truthyOpt, hgid]))] at heq
      simp only [Option.getD_some] at heq
      cases hg : alookup gid m.groups with
      | none =>
        simp only [hg] at heq
        exact Option.noConfusion heq
      | some g =>
        simp only [hg] at heq
        have hnot_in_others : ∀ (p : String × ChatGroup), p ∈ m.groups →
            p.1 ≠ gid → ∀ u ∈ p.2.members, u ≠ t := by
          intro p hp hpne u hu he
          have hum := h.members_mapped p hp u hu
          rw [he, hc] at hum
          exact hpne (Option.some.inj hum).symm
        by_cases hcond : r ≠ g.owner_uid ∧ r ≠ t
        · rw [if_pos hcond] at heq
          simp only [Option.some.injEq, Prod.mk.injEq] at heq
          obtain ⟨h1, -, -⟩ := heq
          exact h1 ▸ h
        · rw [if_neg hcond] at heq
          by_cases htm : t ∈ g.members
          · rw [if_neg (not_not_intro htm)] at heq
            by_cases hlen : (serase t g.members).length ≤ 1
            · rw [if_pos hlen] at heq
              cases hm1 : serase t g.members with
              | nil =>
                rw [hm1] at heq
                simp only [Option.some.injEq, Prod.mk.injEq] at heq
                obtain ⟨h1, -, -⟩ := heq
                refine h1 ▸ ⟨akeys_aset_nodup _ _ h.map_nodup,
                  akeys_aremove_nodup _ h.groups_nodup, ?_, ?_, ?_⟩
                · intro p hp
                  exact h.gid_ne p (mem_aremove_of_mem hp)
                · intro p hp
                  exact h.members_nodup p (mem_aremove_of_mem hp)
                · intro p hp u hu
                  obtain ⟨hpm, hpne⟩ := (mem_aremove_iff h.groups_nodup).mp hp
                  have hune := hnot_in_others p hpm hpne u hu
                  rw [alookup_aset_ne _ _ hune]
                  exact h.members_mapped p hpm u hu
              | cons o rest =>
                rw [hm1] at heq
                simp only [Option.some.injEq, Prod.mk.injEq] at heq
                obtain ⟨h1, -, -⟩ := heq
                have ho : o ∈ g.members ∧ o ≠ t := by
                  have : o ∈ serase t g.members := by
                    rw [hm1]
                    exact List.mem_cons_self o rest
                  exact mem_serase.mp this
                refine h1 ▸ ⟨akeys_aset_nodup _ _ (akeys_aset_nodup _ _ h.map_nodup),
                  akeys_aremove_nodup _ h.groups_nodup, ?_, ?_, ?_⟩
                · intro p hp
                  exact h.gid_ne p (mem_aremove_of_mem hp)
                · intro p hp
                  exact h.members_nodup p (mem_aremove_of_mem hp)
                · intro p hp u hu
                  obtain ⟨hpm, hpne⟩ := (mem_aremove_iff h.groups_nodup).mp hp
                  have hune := hnot_in_others p hpm hpne u hu
                  have huno : u ≠ o := by
                    intro he
                    have hum := h.members_mapped p hpm u hu
                    have hom := h.members_mapped (gid, g) (mem_of_alookup hg) o ho.1
                    rw [he, hom] at hum
                    exact hpne (Option.some.inj hum).symm
                  rw [alookup_aset_ne _ _ huno, alookup_aset_ne _ _ hune]
                  exact h.members_mapped p hpm u hu
            · rw [if_neg hlen] at heq
              simp only [Option.some.injEq, Prod.mk.injEq] at heq
              obtain ⟨h1, -, -⟩ := heq
              refine h1 ▸ ⟨akeys_aset_nodup _ _ h.map_nodup,
                akeys_aset_nodup _ _ h.groups_nodup, ?_, ?_, ?_⟩
              · intro p hp
                rcases (mem_aset_iff h.groups_nodup).mp hp with hp | hp
                · rw [hp]
                  exact hgid
                · exact h.gid_ne p hp.1
              · intro p hp
                rcases (mem_aset_iff h.groups_nodup).mp hp with hp | hp
                · rw [hp]
                  exact serase_nodup
                    (h.members_nodup (gid, g) (mem_of_alookup hg))
                · exact h.members_nodup p hp.1
              · intro p hp u hu
                rcases (mem_aset_iff h.groups_nodup).mp hp with hp | hp
                · rw [hp] at hu ⊢
                  obtain ⟨hug, hune⟩ := mem_serase.mp hu
                  rw [alookup_aset_ne _ _ hune]
                  exact h.members_mapped (gid, g) (mem_of_alookup hg) u hug
                · obtain ⟨hpm, hpne⟩ := hp
                  have hune := hnot_in_others p hpm hpne u hu
                  rw [alookup_aset_ne _ _ hune]
                  exact h.members_mapped p hpm u hu
          · rw [if_pos htm] at heq
            exact Option.noConfusion heq

theorem add_client_to_group_WF {m m' : ChatGroupManager} {i v : String}
    {ok : Bool} {msg : String} (h : RegistryWF m)
    (heq : add_client_to_group m i v = some (m', ok, msg)) : RegistryWF m' := by
  cases hv : alookup v m.client_group_map with
  | none =>
    rw [add_client_to_group, hv] at heq
    rw [if_pos (show (none : Option String).isNone = true from rfl)] at heq
    simp only [Option.some.injEq, Prod.mk.injEq] at heq
    obtain ⟨h1, -, -⟩ := heq
    exact h1 ▸ h
  | some gid =>
    by_cases hgid : gid = ""
    · subst hgid
      have hvnotmem : ∀ p ∈ m.groups, v ∉ p.2.members := by
        intro p hp hvm
        have hum := h.members_mapped p hp v hvm
        rw [hv] at hum
        exact h.gid_ne p hp (Option.some.inj hum).symm
      rw [add_client_to_group, hv,
        if_neg (by simp : ¬ (some ("" : String)).isNone = true),
        if_neg (by simp [truthyOpt] : ¬ truthyOpt (some "") = true)] at heq
      by_cases hitr : truthyOpt (alookup i m.client_group_map) = true
      · obtain ⟨igid, hi, higid⟩ : ∃ igid,
            alookup i m.client_group_map = some igid ∧ igid ≠ "" := by
          cases hi : alookup i m.client_group_map with
          | none =>
            rw [hi] at hitr
            simp [truthyOpt] at hitr
          | some igid =>
            refine ⟨igid, rfl, ?_⟩
            rw [hi] at hitr
            simpa [truthyOpt] using hitr
        rw [hi] at heq
        dsimp only at heq
        rw [if_pos (show truthyOpt (some igid) = true by
          simp [truthyOpt, higid])] at heq
        dsimp only at heq
        simp only [Option.getD_some] at heq
        cases hgg : alookup igid m.groups with
        | none =>
          simp only [hgg] at heq
          exact Option.noConfusion heq
        | some g =>
          simp only [hgg, Option.some.injEq, Prod.mk.injEq] at heq
          obtain ⟨h1, -, -⟩ := heq
          have hgmem : (igid, g) ∈ m.groups := mem_of_alookup hgg
          refine h1 ▸ ⟨akeys_aset_nodup _ _ h.map_nodup,
            akeys_aset_nodup _ _ h.groups_nodup, ?_, ?_, ?_⟩
          · intro p hp
            rcases (mem_aset_iff h.groups_nodup).mp hp with hp | hp
            · rw [hp]
              exact higid
            · exact h.gid_ne p hp.1
          · intro p hp
            rcases (mem_aset_iff h.groups_nodup).mp hp with hp | hp
            · rw [hp]
              exact sadd_nodup (h.members_nodup (igid, g) hgmem)
            · exact h.members_nodup p hp.1
          · intro p hp u hu
            rcases (mem_aset_iff h.groups_nodup).mp hp with hp | hp
            · rw [hp] at hu ⊢
              rcases mem_sadd.mp hu with hu | hu
              · have hune : u ≠ v := by
                  intro he
                  exact hvnotmem (igid, g) hgmem (he ▸ hu)
                rw [alookup_aset_ne _ _ hune]
                exact h.members_mapped (igid, g) hgmem u hu
              · rw [hu]
                exact alookup_aset_self v _ m.client_group_map
            · obtain ⟨hpm, hpne⟩ := hp
              have hune : u ≠ v := by
                intro he
                exact hvnotmem p hpm (he ▸ hu)
              rw [alookup_aset_ne _ _ hune]
              exact h.members_mapped p hpm u hu
      · have hinotmem : ∀ p ∈ m.groups, i ∉ p.2.members := by
          intro p hp him
          have hum := h.members_mapped p hp i him
          rw [hum] at hitr
          exact hitr (by simp [truthyOpt, h.gid_ne p hp])
        dsimp only at heq
        rw [if_neg hitr] at heq
        dsimp only at heq
        simp only [alookup_aset_self, Option.some.injEq, Prod.mk.injEq] at heq
        obtain ⟨h1, -, -⟩ := heq
        have hnd2 : (akeys (aset (mkGroupId i)
            (⟨mkGroupId i, i, [i]⟩ : ChatGroup) m.groups)).Nodup :=
          akeys_aset_nodup _ _ h.groups_nodup
        refine h1 ▸ ⟨akeys_aset_nodup _ _ (akeys_aset_nodup _ _ h.map_nodup),
          akeys_aset_nodup _ _ hnd2, ?_, ?_, ?_⟩
        · intro p hp
          rcases (mem_aset_iff hnd2).mp hp with hp | hp
          · rw [hp]
            exact mkGroupId_ne i
          · rcases (mem_aset_iff h.groups_nodup).mp hp.1 with hp2 | hp2
            · exact absurd (by rw [hp2]) hp.2
            · exact h.gid_ne p hp2.1
        · intro p hp
          rcases (mem_aset_iff hnd2).mp hp with hp | hp
          · rw [hp]
            exact sadd_nodup (List.nodup_singleton i)
          · rcases (mem_aset_iff h.groups_nodup).mp hp.1 with hp2 | hp2
            · exact absurd (by rw [hp2]) hp.2
            · exact h.members_nodup p hp2.1
        · intro p hp u hu
          rcases (mem_aset_iff hnd2).mp hp with hp | hp
          · rw [hp] at hu ⊢
            rcases mem_sadd.mp hu with hu | hu
            · rw [List.mem_singleton.mp hu]
              by_cases hiv : i = v
              · rw [hiv]
                exact alookup_aset_self v _ _
              · rw [alookup_aset_ne _ _ hiv]
                exact alookup_aset_self i _ _
            · rw [hu]
              exact alookup_aset_self v _ _
          · rcases (mem_aset_iff h.groups_nodup).mp hp.1 with hp2 | hp2
            · exact absurd (by rw [hp2]) hp.2
            · obtain ⟨hpm, -⟩ := hp2
              have hune : u ≠ v := by
                intro he
                exact hvnotmem p hpm (he ▸ hu)
              have huni : u ≠ i := by
                intro he
                exact hinotmem p hpm (he ▸ hu)
              rw [alookup_aset_ne _ _ hune, alookup_aset_ne _ _ huni]
              exact h.members_mapped p hpm u hu
    · rw [add_client_to_group, hv] at heq
      rw [if_neg (show ¬ (some gid).isNone = true by simp)] at heq
      rw [if_pos (show truthyOpt (some gid) = true by
        simp [truthyOpt, hgid])] at heq
      simp only [Option.some.injEq, Prod.mk.injEq] at heq
      obtain ⟨h1, -, -⟩ := heq
      exact h1 ▸ h

/-! ## C10: registry index consistency -/

/-- C10 counterexample: `c10CounterState` is reached from the empty
registry by eleven of the claim's operations, yet the two index maps are
not mutually consistent — `client_group_map` maps `"B"` to the stored
group `group_A`, but `"B"` is not among that group's members (the
surviving `group_A` was overwritten when its departed ex-owner `A` invited
`D`). -/
theorem C10_counterexample : ¬ MutuallyConsistent c10CounterState := by
  have hstate : c10CounterState
      = ⟨[("B", "group_A"), ("C", "group_A"), ("D", "group_A"), ("A", "group_A")],
         [("group_A", ⟨"group_A", "A", ["A", "D"]⟩)]⟩ := by rfl
  intro hcons
  obtain ⟨h1, -⟩ := hcons
  obtain ⟨g, hg, hmem⟩ := h1 "B" "group_A" (by rw [hstate]; rfl) (by decide)
  rw [hstate] at hg
  have hgeq : g = ⟨"group_A", "A", ["A", "D"]⟩ := by
    have hsome : (some (⟨"group_A", "A", ["A", "D"]⟩ : ChatGroup))
        = some g := by rw [← hg]; rfl
    exact (Option.some.inj hsome).symm
  rw [hgeq] at hmem
  exact absurd hmem (by decide)

/-- C10 amended: under the operations the server actually performs —
registration of a fresh client (`client_group_map[uid] = ""`),
`add_client_to_group`, `remove_client_from_group`, `remove_client` and
`cleanup_disconnected_clients`, excluding the never-called
`create_group_for_client` — every reachable registry state is well formed:
both index maps have unique keys, stored group ids are non-empty, member
sets are duplicate-free, and the member→map direction of the consistency
claim holds (every member of every stored group is mapped to exactly that
group).  The converse map→member direction is false (see the
counterexample): a client's entry may dangle at a group that no longer
contains it. -/
theorem C10_registry_invariant : ∀ m, ReachableReg m → RegistryWF m := by
  intro m hr
  induction hr with
  | empty =>
    refine ⟨List.nodup_nil, List.nodup_nil, ?_, ?_, ?_⟩ <;>
      exact fun p hp => absurd hp (List.not_mem_nil p)
  | register c _ hfresh ih => exact register_client_WF ih c hfresh
  | add _ heq ih => exact add_client_to_group_WF ih heq
  | remove _ heq ih => exact remove_client_from_group_WF ih heq
  | removeClient c _ ih => exact remove_client_WF ih c
  | cleanup connected _ ih => exact cleanup_WF ih connected

/-- Witness for `C10_registry_invariant`: the state reached by registering
`a` and `b` and inviting `b` into `a`'s freshly created group is well
formed. -/
theorem C10_registry_invariant_witness :
    RegistryWF ⟨[("a", "group_a"), ("b", "group_a")],
      [("group_a", ⟨"group_a", "a", ["a", "b"]⟩)]⟩ :=
  C10_registry_invariant _
    (@ReachableReg.add
      (register_client (register_client ChatGroupManager.empty "a") "b")
      ⟨[("a", "group_a"), ("b", "group_a")],
        [("group_a", ⟨"group_a", "a", ["a", "b"]⟩)]⟩
      "a" "b" true ("Successfully added " ++ "b" ++ " to the group")
      (ReachableReg.register "b"
        (ReachableReg.register "a" ReachableReg.empty rfl) rfl)
      (by rfl))
